import Mathlib

/-!
Verification development for the samply symbolication core.

This file gives a shallow embedding, in Lean 4, of the three source files

  * `src/lib/src/macho.rs` — Mach-O symbolication engine,
  * `src/lib/src/pdb/addr2line.rs` — PDB frame resolution,
  * `src/samply/src/mac/process_launcher.rs` — macOS task-acquisition bridge,

faithful to the Rust source. Machine integers (`u32`, `u64`, byte values) are
modelled as `Nat`: all arithmetic appearing in the embedded code paths is
addition/subtraction of addresses where the Rust code itself cannot overflow in
the cases the theorems speak about, and comparisons, so no modular wraparound
is introduced. Data reached only through external crates (`object`, `pdb`,
`uuid`, mach IPC) is modelled as abstract parse outcomes or opaque identifiers,
with the control flow of the repository's own code translated exactly.
Panicking operations (`unwrap`, `assert!`, out-of-bounds slicing) are modelled
by `Option`-valued results where a claim depends on them, with `none` marking
a panic.
-/

/-- Embedding of `GetSymbolsError` (the repository's error enum), restricted to
the variants reachable from the embedded code. Inner errors coming from the
`object`/`pdb` crates are opaque and represented by a `Nat` tag. Paths are byte
strings represented as `List Char`. -/
inductive GetSymbolsError where
  | InvalidInputError (msg : String)
  | MachOHeaderParseError (inner : Nat)
  | UnmatchedBreakpadId (found expected : String)
  | NoMatchMultiArch (uuids : List String) (errors : List GetSymbolsError)
  | ArchiveParseError (path : List Char) (inner : Nat)

/-! ### Rust `slice::binary_search`

`get_addresses_covered_by_range` in `src/lib/src/pdb/addr2line.rs` calls Rust's
`slice::binary_search`. We embed the exact loop of the standard library
(`binary_search_by`): window `[left, right)`, probe `mid = left + size / 2`
with `size = right - left`, return `Ok(mid)` on an equal probe, `Err(left)`
when the window empties. The recursion is driven by a fuel argument so the
definition evaluates by kernel reduction; `fuel = right - left` at the call
site is always sufficient, since every step strictly shrinks the window. -/
def rustBinarySearchGo (l : List Nat) (target : Nat) : Nat → Nat → Nat → Nat ⊕ Nat
  | 0, left, _ => Sum.inr left
  | fuel + 1, left, right =>
    if left < right then
      let mid := left + (right - left) / 2
      let v := l.getD mid 0
      if v < target then rustBinarySearchGo l target fuel (mid + 1) right
      else if target < v then rustBinarySearchGo l target fuel left mid
      else Sum.inl mid
    else Sum.inr left

/-- Rust `slice::binary_search(&target)` on a `&[u32]`, as `Sum.inl i` for
`Ok(i)` and `Sum.inr i` for `Err(i)`. -/
def rustBinarySearch (l : List Nat) (target : Nat) : Nat ⊕ Nat :=
  rustBinarySearchGo l target l.length 0 l.length

/-- The index carried by either constructor of a `binary_search` result — the
Rust code of `get_addresses_covered_by_range` uses `Ok(i) => i, Err(i) => i`. -/
def binSearchIndex : Nat ⊕ Nat → Nat
  | Sum.inl i => i
  | Sum.inr i => i

/-- Embedding of `get_addresses_covered_by_range` from
`src/lib/src/pdb/addr2line.rs` (lines 353–364): two binary searches, first for
`range.start` over the whole slice, then for `range.end` over the suffix; the
result is the sub-slice `&addresses[start_index..][..len]`. -/
def get_addresses_covered_by_range (addresses : List Nat) (s e : Nat) : List Nat :=
  let start_index := binSearchIndex (rustBinarySearch addresses s)
  let half_range := addresses.drop start_index
  let len := binSearchIndex (rustBinarySearch half_range e)
  half_range.take len

/-- `getD` through `List.drop`, stated without embedded index proofs. -/
theorem getD_drop_eq (l : List Nat) (i j : Nat) (h : j < (l.drop i).length) :
    (l.drop i).getD j 0 = l.getD (i + j) 0 := by
  have h2 : i + j < l.length := by
    rw [List.length_drop] at h; omega
  rw [List.getD_eq_getElem _ 0 h, List.getD_eq_getElem _ 0 h2, List.getElem_drop]

/-- `getD` through `List.take`, stated without embedded index proofs. -/
theorem getD_take_eq (l : List Nat) (i j : Nat) (h : j < (l.take i).length) :
    (l.take i).getD j 0 = l.getD j 0 := by
  have h2 : j < l.length := by rw [List.length_take] at h; omega
  rw [List.getD_eq_getElem _ 0 h, List.getD_eq_getElem _ 0 h2, List.getElem_take]

/-- List membership phrased through `getD`. -/
theorem mem_iff_getD (l : List Nat) (x : Nat) :
    x ∈ l ↔ ∃ j, j < l.length ∧ l.getD j 0 = x := by
  rw [List.mem_iff_getElem]
  constructor
  · rintro ⟨n, h, rfl⟩; exact ⟨n, h, List.getD_eq_getElem l 0 h⟩
  · rintro ⟨n, h, hx⟩; exact ⟨n, h, by rw [← List.getD_eq_getElem l 0 h, hx]⟩

/-- On a strictly sorted list, the Rust binary-search loop returns a boundary
index: every element strictly before it is `< target` and every element from it
on is `≥ target`. Hypotheses carry the loop invariants for the window
`[left, right)`. -/
theorem rustBinarySearchGo_bound (l : List Nat) (t : Nat)
    (hsort : l.Pairwise (· < ·)) :
    ∀ fuel left right, right - left ≤ fuel → left ≤ right → right ≤ l.length →
      (∀ j, j < left → j < l.length → l.getD j 0 < t) →
      (∀ j, right ≤ j → j < l.length → t < l.getD j 0) →
      binSearchIndex (rustBinarySearchGo l t fuel left right) ≤ l.length ∧
        (∀ j, j < binSearchIndex (rustBinarySearchGo l t fuel left right) →
          j < l.length → l.getD j 0 < t) ∧
        (∀ j, binSearchIndex (rustBinarySearchGo l t fuel left right) ≤ j →
          j < l.length → t ≤ l.getD j 0) := by
  have hmono : ∀ i j, i < j → ∀ hj : j < l.length, l.getD i 0 < l.getD j 0 := by
    intro i j hij hj
    have hi : i < l.length := lt_trans hij hj
    rw [List.getD_eq_getElem l 0 hi, List.getD_eq_getElem l 0 hj]
    exact List.pairwise_iff_getElem.mp hsort i j hi hj hij
  intro fuel
  induction fuel with
  | zero =>
    intro left right hf hlr hrl h1 h2
    have heq : left = right := by omega
    subst heq
    simp only [rustBinarySearchGo, binSearchIndex]
    refine ⟨by omega, fun j hj hjl => h1 j hj hjl,
      fun j hj hjl => le_of_lt (h2 j hj hjl)⟩
  | succ n ih =>
    intro left right hf hlr hrl h1 h2
    by_cases hlt : left < right
    · have hdivlt : (right - left) / 2 < right - left :=
        Nat.div_lt_self (by omega) (by omega)
      have hmidlo : left ≤ left + (right - left) / 2 := Nat.le_add_right _ _
      have hmidhi : left + (right - left) / 2 < right := by omega
      have hmidlen : left + (right - left) / 2 < l.length := lt_of_lt_of_le hmidhi hrl
      simp only [rustBinarySearchGo, if_pos hlt]
      by_cases hvt : l.getD (left + (right - left) / 2) 0 < t
      · simp only [if_pos hvt]
        refine ih (left + (right - left) / 2 + 1) right (by omega) (by omega) hrl ?_ h2
        intro j hj hjl
        rcases Nat.lt_or_ge j left with hcase | hcase
        · exact h1 j hcase hjl
        · rcases Nat.lt_or_ge j (left + (right - left) / 2) with hc2 | hc2
          · exact lt_trans (hmono j _ hc2 hmidlen) hvt
          · have : j = left + (right - left) / 2 := by omega
            rw [this]; exact hvt
      · simp only [if_neg hvt]
        by_cases htv : t < l.getD (left + (right - left) / 2) 0
        · simp only [if_pos htv]
          refine ih left (left + (right - left) / 2) (by omega) (by omega)
            (le_of_lt hmidlen) h1 ?_
          intro j hj hjl
          rcases Nat.lt_or_ge j right with hcase | hcase
          · rcases Nat.lt_or_ge (left + (right - left) / 2) j with hc2 | hc2
            · exact lt_trans htv (hmono _ j hc2 hjl)
            · have : j = left + (right - left) / 2 := by omega
              rw [this]; exact htv
          · exact h2 j hcase hjl
        · simp only [if_neg htv, binSearchIndex]
          have hveq : l.getD (left + (right - left) / 2) 0 = t := by omega
          refine ⟨le_of_lt hmidlen, ?_, ?_⟩
          · intro j hj hjl
            exact hveq ▸ hmono j _ hj hmidlen
          · intro j hj hjl
            rcases Nat.lt_or_ge (left + (right - left) / 2) j with hc2 | hc2
            · exact le_of_lt (hveq ▸ hmono _ j hc2 hjl)
            · have : j = left + (right - left) / 2 := by omega
              rw [this]; exact le_of_eq hveq.symm
    · have heq : left = right := by omega
      subst heq
      simp only [rustBinarySearchGo, if_neg hlt, binSearchIndex]
      refine ⟨by omega, fun j hj hjl => h1 j hj hjl,
        fun j hj hjl => le_of_lt (h2 j hj hjl)⟩

/-- Boundary characterization of the embedded `slice::binary_search` on a
strictly sorted list, at the initial full window. -/
theorem rustBinarySearch_bound (l : List Nat) (t : Nat)
    (hsort : l.Pairwise (· < ·)) :
    binSearchIndex (rustBinarySearch l t) ≤ l.length ∧
      (∀ j, j < binSearchIndex (rustBinarySearch l t) →
        j < l.length → l.getD j 0 < t) ∧
      (∀ j, binSearchIndex (rustBinarySearch l t) ≤ j →
        j < l.length → t ≤ l.getD j 0) :=
  rustBinarySearchGo_bound l t hsort l.length 0 l.length (by omega) (by omega)
    (le_refl _) (fun j hj _ => absurd hj (Nat.not_lt_zero j))
    (fun j hj hjl => absurd hjl (by omega))

/-- C6 (amended): for a strictly sorted (ascending, duplicate-free) address
slice and any half-open range `[s, e)`, `get_addresses_covered_by_range`
returns a contiguous sub-slice of the input that contains exactly those input
addresses `x` with `s ≤ x < e`. -/
theorem C6_covered_by_range_exact (addresses : List Nat) (s e : Nat)
    (hsort : addresses.Pairwise (· < ·)) :
    (∃ pre post,
        addresses = pre ++ get_addresses_covered_by_range addresses s e ++ post) ∧
      (∀ x, x ∈ get_addresses_covered_by_range addresses s e ↔
        x ∈ addresses ∧ s ≤ x ∧ x < e) := by
  obtain ⟨hi1len, hi1lt, hi1ge⟩ := rustBinarySearch_bound addresses s hsort
  have hhalfsort : (addresses.drop (binSearchIndex (rustBinarySearch addresses s))).Pairwise
      (· < ·) := List.Pairwise.sublist (List.drop_sublist _ _) hsort
  obtain ⟨hi2len, hi2lt, hi2ge⟩ :=
    rustBinarySearch_bound
      (addresses.drop (binSearchIndex (rustBinarySearch addresses s))) e hhalfsort
  set i1 := binSearchIndex (rustBinarySearch addresses s) with hi1def
  set half := addresses.drop i1 with hhalfdef
  set i2 := binSearchIndex (rustBinarySearch half e) with hi2def
  have hresult : get_addresses_covered_by_range addresses s e = half.take i2 := rfl
  have hhalflen : half.length = addresses.length - i1 := by
    rw [hhalfdef]; exact List.length_drop _ _
  constructor
  · refine ⟨addresses.take i1, half.drop i2, ?_⟩
    rw [hresult, List.append_assoc, List.take_append_drop i2 half, hhalfdef,
      List.take_append_drop]
  · intro x
    rw [hresult]
    constructor
    · intro hx
      obtain ⟨j, hj, hget⟩ := (mem_iff_getD _ x).mp hx
      have hjlen : j < half.length := by
        rw [List.length_take] at hj; omega
      have hji2 : j < i2 := by
        rw [List.length_take] at hj; omega
      have hgethalf : half.getD j 0 = x := by
        rw [← hget, getD_take_eq _ _ _ hj]
      have hjaddr : i1 + j < addresses.length := by omega
      have hgetaddr : addresses.getD (i1 + j) 0 = x := by
        rw [← hgethalf, hhalfdef, getD_drop_eq _ _ _ (by rw [← hhalfdef]; exact hjlen)]
      refine ⟨?_, ?_, ?_⟩
      · exact (mem_iff_getD _ x).mpr ⟨i1 + j, hjaddr, hgetaddr⟩
      · have := hi1ge (i1 + j) (Nat.le_add_right _ _) hjaddr
        rwa [hgetaddr] at this
      · have := hi2lt j hji2 hjlen
        rwa [hgethalf] at this
    · rintro ⟨hmem, hs, he⟩
      obtain ⟨j, hjlen, hget⟩ := (mem_iff_getD _ x).mp hmem
      have hji1 : i1 ≤ j := by
        by_contra hcon
        have := hi1lt j (by omega) hjlen
        omega
      have hjh : j - i1 < half.length := by omega
      have hgethalf : half.getD (j - i1) 0 = x := by
        rw [hhalfdef, getD_drop_eq _ _ _ (by rw [← hhalfdef]; exact hjh)]
        have harith : i1 + (j - i1) = j := by omega
        rw [harith, hget]
      have hji2 : j - i1 < i2 := by
        by_contra hcon
        have := hi2ge (j - i1) (by omega) hjh
        omega
      refine (mem_iff_getD _ x).mpr ⟨j - i1, ?_, ?_⟩
      · rw [List.length_take]; omega
      · rw [getD_take_eq _ _ _ (by rw [List.length_take]; omega)]
        exact hgethalf

/-- C6 counterexample to the claim as stated: the input `[10, 10]` is sorted
(ascending), but for the range `[5, 10)` the returned sub-slice is `[10]`,
which contains the address `10` even though `10 < 10` fails — Rust's
`binary_search` may land in the middle of a run of duplicates. -/
theorem C6_counterexample :
    List.Pairwise (· ≤ ·) ([10, 10] : List Nat) ∧
      get_addresses_covered_by_range [10, 10] 5 10 = [10] ∧
      10 ∈ get_addresses_covered_by_range [10, 10] 5 10 ∧ ¬(10 : Nat) < 10 := by
  decide

/-- C6 witness: the amended theorem applied at a concrete strictly sorted
input. -/
theorem C6_witness :
    ((5 : Nat) ∈ get_addresses_covered_by_range [1, 3, 5, 7] 3 7 ↔
      (5 : Nat) ∈ ([1, 3, 5, 7] : List Nat) ∧ 3 ≤ 5 ∧ 5 < 7) ∧
    ((1 : Nat) ∈ get_addresses_covered_by_range [1, 3, 5, 7] 3 7 ↔
      (1 : Nat) ∈ ([1, 3, 5, 7] : List Nat) ∧ 3 ≤ 1 ∧ 1 < 7) :=
  ⟨(C6_covered_by_range_exact [1, 3, 5, 7] 3 7 (by decide)).2 5,
    (C6_covered_by_range_exact [1, 3, 5, 7] 3 7 (by decide)).2 1⟩

/-! ### Mach-O build-id extraction (`get_macho_uuid`, `src/lib/src/macho.rs` 54–74)

The header parsing itself is done by the `object` crate; we embed its outcome
as an abstract value: a structural parse failure (any error propagated by `?`
inside the `helper` closure), a parsed header without a UUID load command, or
sixteen UUID bytes. A successfully parsed non-Mach-O file kind makes the code
panic, modelled as `none`. The formatting `format!("{:X}0", uuid.to_simple())`
prints the 16 bytes as 32 uppercase hexadecimal digits and appends the
character `0`. -/
inductive MachOUuidOutcome where
  | parseError (inner : Nat)
  | notMachO
  | noUuid
  | uuid (bytes : List Nat)

/-- Uppercase hexadecimal digit for a value `< 16`: `'0'`–`'9'`, `'A'`–`'F'`. -/
def hexDigitUpper (n : Nat) : Char :=
  if n < 10 then Char.ofNat (48 + n) else Char.ofNat (55 + n)

/-- One byte as two uppercase hexadecimal digits, high nibble first. -/
def byteHexUpper (b : Nat) : List Char :=
  [hexDigitUpper (b / 16 % 16), hexDigitUpper (b % 16)]

/-- `uuid.to_simple()` under `{:X}`: the bytes in order, each as two uppercase
hex digits, without hyphens. -/
def uuidSimpleUpper (bytes : List Nat) : String :=
  String.mk (bytes.flatMap byteHexUpper)

/-- Embedding of `get_macho_uuid`: the `match helper()` at the bottom of the
function. `none` is the panic on a non-Mach-O file kind. -/
def get_macho_uuid (o : MachOUuidOutcome) : Option (Except GetSymbolsError String) :=
  match o with
  | .notMachO => none
  | .uuid u => some (.ok (uuidSimpleUpper u ++ "0"))
  | .noUuid => some (.error (.InvalidInputError "Missing mach-o uuid"))
  | .parseError e => some (.error (.MachOHeaderParseError e))

/-- The spec's description of the build identifier: "the 16 UUID bytes
formatted as uppercase hex with an appended `0` character". Written from the
spec's words, for comparison against the code-side `get_macho_uuid`. -/
def spec_uppercase_hex_build_id (bytes : List Nat) : String :=
  String.mk (bytes.foldr (fun b acc => byteHexUpper b ++ acc) []) ++ "0"

theorem flatMap_byteHexUpper_length (l : List Nat) :
    (l.flatMap byteHexUpper).length = 2 * l.length := by
  induction l with
  | nil => rfl
  | cons b rest ih =>
    simp only [List.flatMap_cons, List.length_append, ih, byteHexUpper,
      List.length_cons, List.length_nil]
    omega

theorem foldr_byteHexUpper_eq_flatMap (l : List Nat) :
    l.foldr (fun b acc => byteHexUpper b ++ acc) [] = l.flatMap byteHexUpper := by
  induction l with
  | nil => rfl
  | cons b rest ih => simp only [List.foldr_cons, List.flatMap_cons, ih]

/-- C8: a byte range whose Mach-O header carries a UUID load command with
16 UUID bytes `u` yields `Ok` of the uppercase hex of `u` followed by a single
`0` character, a 33-character string; a parsed header without a UUID load
command yields `InvalidInputError`; a structurally invalid header yields
`MachOHeaderParseError`. -/
theorem C8_get_macho_uuid (u : List Nat) (hlen : u.length = 16) :
    get_macho_uuid (.uuid u) = some (.ok (spec_uppercase_hex_build_id u)) ∧
      (uuidSimpleUpper u ++ "0").length = 33 ∧
      get_macho_uuid .noUuid =
        some (.error (.InvalidInputError "Missing mach-o uuid")) ∧
      (∀ e, get_macho_uuid (.parseError e) =
        some (.error (.MachOHeaderParseError e))) := by
  refine ⟨?_, ?_, rfl, fun e => rfl⟩
  · simp only [get_macho_uuid, spec_uppercase_hex_build_id,
      foldr_byteHexUpper_eq_flatMap, uuidSimpleUpper]
  · rw [String.length_append]
    have h1 : (uuidSimpleUpper u).length = 32 := by
      show (u.flatMap byteHexUpper).length = 32
      rw [flatMap_byteHexUpper_length, hlen]
    rw [h1]
    rfl

/-- C8 witness: the theorem applied to a concrete 16-byte UUID. -/
theorem C8_witness :
    get_macho_uuid (.uuid [0, 1, 2, 3, 4, 5, 6, 7, 8, 9, 10, 11, 12, 13, 14, 255]) =
      some (.ok (spec_uppercase_hex_build_id
        [0, 1, 2, 3, 4, 5, 6, 7, 8, 9, 10, 11, 12, 13, 14, 255])) :=
  (C8_get_macho_uuid [0, 1, 2, 3, 4, 5, 6, 7, 8, 9, 10, 11, 12, 13, 14, 255]
    (by decide)).1

example :
    get_macho_uuid (.uuid [0, 1, 2, 3, 4, 5, 6, 7, 8, 9, 10, 11, 12, 13, 14, 255]) =
      some (.ok "000102030405060708090A0B0C0D0EFF0") := rfl

/-! ### Fat-binary slice selection (`get_arch_range`, `src/lib/src/macho.rs` 28–52)

Each fat-arch descriptor contributes its `file_range() = (start, size)`; the
composition `get_macho_uuid(file_contents.range(start, size))` is abstracted
as a function `uuidOf` from ranges to a build-id string or an error. The loop
accumulates observed uuids and errors in order and returns the first matching
range. -/
def get_arch_range_go (uuidOf : Nat × Nat → Except GetSymbolsError String)
    (breakpad_id : String) :
    List (Nat × Nat) → List String → List GetSymbolsError →
      Except GetSymbolsError (Nat × Nat)
  | [], uuids, errors => .error (.NoMatchMultiArch uuids errors)
  | r :: rest, uuids, errors =>
    match uuidOf r with
    | .ok uuid =>
      if uuid = breakpad_id then .ok r
      else get_arch_range_go uuidOf breakpad_id rest (uuids ++ [uuid]) errors
    | .error err => get_arch_range_go uuidOf breakpad_id rest uuids (errors ++ [err])

/-- Embedding of `get_arch_range`. -/
def get_arch_range (uuidOf : Nat × Nat → Except GetSymbolsError String)
    (arches : List (Nat × Nat)) (breakpad_id : String) :
    Except GetSymbolsError (Nat × Nat) :=
  get_arch_range_go uuidOf breakpad_id arches [] []

/-- Whether a descriptor's slice parses to the target build-id. -/
def archMatches (uuidOf : Nat × Nat → Except GetSymbolsError String)
    (breakpad_id : String) (r : Nat × Nat) : Bool :=
  match uuidOf r with
  | .ok uuid => uuid = breakpad_id
  | .error _ => false

/-- The build-id of a parseable slice, `none` for an unparseable one. -/
def archUuid (uuidOf : Nat × Nat → Except GetSymbolsError String)
    (r : Nat × Nat) : Option String :=
  match uuidOf r with
  | .ok uuid => some uuid
  | .error _ => none

/-- The parse error of an unparseable slice, `none` for a parseable one. -/
def archError (uuidOf : Nat × Nat → Except GetSymbolsError String)
    (r : Nat × Nat) : Option GetSymbolsError :=
  match uuidOf r with
  | .ok _ => none
  | .error e => some e

theorem get_arch_range_go_spec (uuidOf : Nat × Nat → Except GetSymbolsError String)
    (breakpad_id : String) :
    ∀ (arches : List (Nat × Nat)) (uuids : List String)
      (errors : List GetSymbolsError),
      get_arch_range_go uuidOf breakpad_id arches uuids errors =
        match arches.find? (archMatches uuidOf breakpad_id) with
        | some r => .ok r
        | none =>
          .error (.NoMatchMultiArch (uuids ++ arches.filterMap (archUuid uuidOf))
            (errors ++ arches.filterMap (archError uuidOf))) := by
  intro arches
  induction arches with
  | nil =>
    intro uuids errors
    simp [get_arch_range_go, List.find?_nil]
  | cons r rest ih =>
    intro uuids errors
    cases hu : uuidOf r with
    | ok u =>
      by_cases hmatch : u = breakpad_id
      · have hm : archMatches uuidOf breakpad_id r = true := by
          simp [archMatches, hu, hmatch]
        simp only [get_arch_range_go, hu, if_pos hmatch, List.find?_cons, hm]
      · have hm : archMatches uuidOf breakpad_id r = false := by
          simp [archMatches, hu, hmatch]
        have ha : archUuid uuidOf r = some u := by simp [archUuid, hu]
        have he : archError uuidOf r = none := by simp [archError, hu]
        simp only [get_arch_range_go, hu, if_neg hmatch, ih, List.find?_cons, hm,
          List.filterMap_cons, ha, he]
        rcases hfind : rest.find? (archMatches uuidOf breakpad_id) with _ | r'
        · simp [List.append_assoc]
        · rfl
    | error e =>
      have hm : archMatches uuidOf breakpad_id r = false := by
        simp [archMatches, hu]
      have ha : archUuid uuidOf r = none := by simp [archUuid, hu]
      have he : archError uuidOf r = some e := by simp [archError, hu]
      simp only [get_arch_range_go, hu, ih, List.find?_cons, hm,
        List.filterMap_cons, ha, he]
      rcases hfind : rest.find? (archMatches uuidOf breakpad_id) with _ | r'
      · simp [List.append_assoc]
      · rfl

/-- C5: `get_arch_range` returns the file range of the first descriptor whose
slice's computed build-id equals the target; when none matches it returns
`NoMatchMultiArch` with the build-ids of the parseable slices and the parse
errors of the unparseable slices, in order; an unparseable slice never aborts
the search. -/
theorem C5_get_arch_range (uuidOf : Nat × Nat → Except GetSymbolsError String)
    (arches : List (Nat × Nat)) (breakpad_id : String) :
    (∀ r, arches.find? (archMatches uuidOf breakpad_id) = some r →
      get_arch_range uuidOf arches breakpad_id = .ok r) ∧
      (arches.find? (archMatches uuidOf breakpad_id) = none →
        get_arch_range uuidOf arches breakpad_id =
          .error (.NoMatchMultiArch (arches.filterMap (archUuid uuidOf))
            (arches.filterMap (archError uuidOf)))) := by
  constructor
  · intro r hfind
    rw [get_arch_range, get_arch_range_go_spec, hfind]
  · intro hfind
    rw [get_arch_range, get_arch_range_go_spec, hfind]
    simp only [List.nil_append]

/-- A concrete slice-to-build-id assignment used to exercise `get_arch_range`:
slice 0 fails to parse, slice 1 parses to `"AAAA"`, all others to `"BBBB"`. -/
def c5UuidOf : Nat × Nat → Except GetSymbolsError String
  | (0, _) => .error (.MachOHeaderParseError 3)
  | (1, _) => .ok "AAAA"
  | _ => .ok "BBBB"

/-- C5 witness: the theorem applied at concrete inputs — a matching third
slice is returned even though the first slice fails to parse, and with no
match the observed uuids and errors are both reported. -/
theorem C5_witness :
    get_arch_range c5UuidOf [(0, 10), (1, 10), (2, 10)] "BBBB" = .ok (2, 10) ∧
      get_arch_range c5UuidOf [(0, 10), (1, 10)] "CCCC" =
        .error (.NoMatchMultiArch
          (List.filterMap (archUuid c5UuidOf) [(0, 10), (1, 10)])
          (List.filterMap (archError c5UuidOf) [(0, 10), (1, 10)])) :=
  ⟨(C5_get_arch_range c5UuidOf [(0, 10), (1, 10), (2, 10)] "BBBB").1 (2, 10)
      (by decide),
    (C5_get_arch_range c5UuidOf [(0, 10), (1, 10)] "CCCC").2 (by decide)⟩

example :
    get_arch_range c5UuidOf [(0, 10), (1, 10)] "CCCC" =
      .error (.NoMatchMultiArch ["AAAA"] [.MachOHeaderParseError 3]) := rfl

/-! ### macOS task-acquisition bridge
(`src/samply/src/mac/process_launcher.rs`)

`next_message` receives a datagram: a byte vector `res` plus a vector of
attached IPC channels. Channels are modelled as opaque identifiers (`Nat`);
`OsIpcChannel::into_port` / `into_sender` keep the identifier. `Vec::pop`
removes the *last* element. The function is embedded as `Option`-valued:
`none` models a panic (`split_at` past the end, a failed `assert!`,
`Option::unwrap` on an empty pop, out-of-bounds slicing, or the explicit
`panic!` on an unknown tag). -/
def myTaskTag : List Nat := [77, 121, 32, 116, 97, 115, 107]

def jitdumpTag : List Nat := [74, 105, 116, 100, 117, 109, 112]

def proceedBytes : List Nat := [80, 114, 111, 99, 101, 101, 100]

structure AcceptedTask where
  task : Nat
  pid : Nat
  sender_channel : Nat
deriving DecidableEq

inductive ReceivedStuff where
  | AcceptedTask (t : AcceptedTask)
  | JitdumpPath (pid : Nat) (path : List Nat)
deriving DecidableEq

/-- `u32::from_le_bytes([b0, b1, b2, b3])`. -/
def u32FromLeBytes (b0 b1 b2 b3 : Nat) : Nat :=
  b0 + 256 * b1 + 65536 * b2 + 16777216 * b3

/-- `Vec::pop`: removes and returns the last element. -/
def vecPop (l : List Nat) : Option (Nat × List Nat) :=
  match l.getLast? with
  | none => none
  | some x => some (x, l.dropLast)

/-- Embedding of `TaskAccepter::next_message` after a successful `accept`:
the body from `res.split_at(7)` on, given the received bytes and attached
channels. -/
def next_message (data : List Nat) (channels : List Nat) : Option ReceivedStuff :=
  if 7 ≤ data.length then
    let tag := data.take 7
    let payload := data.drop 7
    if tag = myTaskTag then
      if payload.length = 4 then
        match vecPop channels with
        | none => none
        | some (task_channel, rest) =>
          match vecPop rest with
          | none => none
          | some (sender_channel, _) =>
            some (.AcceptedTask
              { task := task_channel
                pid := u32FromLeBytes (payload.getD 0 0) (payload.getD 1 0)
                  (payload.getD 2 0) (payload.getD 3 0)
                sender_channel := sender_channel })
      else none
    else if tag = jitdumpTag then
      if 5 ≤ payload.length ∧ payload.getD 4 0 ≤ payload.length - 5 then
        some (.JitdumpPath
          (u32FromLeBytes (payload.getD 0 0) (payload.getD 1 0) (payload.getD 2 0)
            (payload.getD 3 0))
          ((payload.drop 5).take (payload.getD 4 0)))
      else none
    else none
  else none

/-- The message sent on an `OsIpcSender`: channel identifier, bytes, attached
ports. -/
structure SentMessage where
  channel : Nat
  bytes : List Nat
  ports : List Nat
deriving DecidableEq

/-- Embedding of `AcceptedTask::start_execution`:
`self.sender_channel.send(b"Proceed", vec![])`. -/
def start_execution (t : AcceptedTask) : SentMessage :=
  { channel := t.sender_channel, bytes := proceedBytes, ports := [] }

theorem vecPop_concat (l : List Nat) (x : Nat) : vecPop (l ++ [x]) = some (x, l) := by
  simp [vecPop, List.getLast?_concat, List.dropLast_concat]

theorem length_myTaskTag_append (payload : List Nat) :
    (myTaskTag ++ payload).length = 7 + payload.length := by
  simp [myTaskTag]; omega

theorem length_jitdumpTag_append (payload : List Nat) :
    (jitdumpTag ++ payload).length = 7 + payload.length := by
  simp [jitdumpTag]; omega

/-- C2 (amended): for a datagram whose 7-byte tag is `"My task"` with a
4-byte payload and at least two attached channels, `next_message` returns
`AcceptedTask` whose pid is the little-endian decoding of the payload, whose
task port is the *first* popped channel (the last of the vector) and whose
sender channel is the *second* popped channel; `start_execution` on that task
sends exactly the bytes `"Proceed"` (and no ports) on the sender channel. -/
theorem C2_next_message_my_task (payload rest : List Nat) (sender task : Nat)
    (hp : payload.length = 4) :
    next_message (myTaskTag ++ payload) (rest ++ [sender, task]) =
      some (.AcceptedTask
        { task := task
          pid := u32FromLeBytes (payload.getD 0 0) (payload.getD 1 0)
            (payload.getD 2 0) (payload.getD 3 0)
          sender_channel := sender }) ∧
      start_execution
          { task := task
            pid := u32FromLeBytes (payload.getD 0 0) (payload.getD 1 0)
              (payload.getD 2 0) (payload.getD 3 0)
            sender_channel := sender } =
        { channel := sender, bytes := proceedBytes, ports := [] } := by
  constructor
  · have h7 : 7 ≤ (myTaskTag ++ payload).length := by
      rw [length_myTaskTag_append]; omega
    have htake : (myTaskTag ++ payload).take 7 = myTaskTag := rfl
    have hdrop : (myTaskTag ++ payload).drop 7 = payload := rfl
    have hpop1 : vecPop (rest ++ [sender, task]) = some (task, rest ++ [sender]) := by
      have : rest ++ [sender, task] = (rest ++ [sender]) ++ [task] := by simp
      rw [this, vecPop_concat]
    have hpop2 : vecPop (rest ++ [sender]) = some (sender, rest) := vecPop_concat _ _
    simp only [next_message, if_pos h7, htake, hdrop, if_pos rfl, if_pos hp,
      hpop1, hpop2, if_true, eq_self_iff_true]
  · rfl

/-- C2 counterexample to the claim as stated: with attached channels `[5, 9]`
(so `9` is popped first), the code makes the first popped channel the *task*
port and the second popped channel the sender — not the other way around as
the claim says. -/
theorem C2_counterexample :
    next_message (myTaskTag ++ [210, 4, 0, 0]) [5, 9] =
        some (.AcceptedTask { task := 9, pid := 1234, sender_channel := 5 }) ∧
      next_message (myTaskTag ++ [210, 4, 0, 0]) [5, 9] ≠
        some (.AcceptedTask { task := 5, pid := 1234, sender_channel := 9 }) := by
  decide

/-- C2 witness: the amended theorem applied at pid `1234` and channels
`[5, 9]`. -/
theorem C2_witness :
    next_message (myTaskTag ++ [210, 4, 0, 0]) ([] ++ [5, 9]) =
        some (.AcceptedTask { task := 9, pid := 1234, sender_channel := 5 }) ∧
      start_execution { task := 9, pid := 1234, sender_channel := 5 } =
        { channel := 5, bytes := proceedBytes, ports := [] } := by
  have h := C2_next_message_my_task [210, 4, 0, 0] [] 5 9 (by decide)
  refine ⟨?_, rfl⟩
  rw [h.1]
  decide

/-- C10: `next_message` is not total over malformed datagrams — each listed
shape panics (modelled by `none`) instead of producing a `MachError`: any
datagram shorter than 7 bytes; a `"My task"` datagram whose payload is not
exactly 4 bytes, or with fewer than two attached channels; a `"Jitdump"`
datagram whose payload is shorter than 5 bytes plus the declared path
length. -/
theorem C10_next_message_panics :
    (∀ data channels, data.length < 7 → next_message data channels = none) ∧
      (∀ payload channels, payload.length ≠ 4 →
        next_message (myTaskTag ++ payload) channels = none) ∧
      (∀ payload channels, channels.length < 2 →
        next_message (myTaskTag ++ payload) channels = none) ∧
      (∀ payload channels, payload.length < 5 + payload.getD 4 0 →
        next_message (jitdumpTag ++ payload) channels = none) := by
  refine ⟨?_, ?_, ?_, ?_⟩
  · intro data channels hlen
    simp only [next_message, if_neg (by omega : ¬7 ≤ data.length)]
  · intro payload channels hne
    have h7 : 7 ≤ (myTaskTag ++ payload).length := by
      rw [length_myTaskTag_append]; omega
    have htake : (myTaskTag ++ payload).take 7 = myTaskTag := rfl
    have hdrop : (myTaskTag ++ payload).drop 7 = payload := rfl
    simp only [next_message, if_pos h7, htake, hdrop, if_pos rfl, if_neg hne,
      if_true, eq_self_iff_true]
  · intro payload channels hch
    have h7 : 7 ≤ (myTaskTag ++ payload).length := by
      rw [length_myTaskTag_append]; omega
    have htake : (myTaskTag ++ payload).take 7 = myTaskTag := rfl
    have hdrop : (myTaskTag ++ payload).drop 7 = payload := rfl
    by_cases hp : payload.length = 4
    · rcases channels with _ | ⟨c, _ | ⟨d, more⟩⟩
      · simp only [next_message, if_pos h7, htake, hdrop, if_pos rfl, if_pos hp,
          vecPop, if_true, eq_self_iff_true, List.getLast?]
      · simp only [next_message, if_pos h7, htake, hdrop, if_pos rfl, if_pos hp,
          vecPop, List.getLast?, List.dropLast, if_true, eq_self_iff_true]
      · exfalso
        simp only [List.length_cons] at hch
        omega
    · simp only [next_message, if_pos h7, htake, hdrop, if_pos rfl, if_neg hp,
        if_true, eq_self_iff_true]
  · intro payload channels hlen
    have h7 : 7 ≤ (jitdumpTag ++ payload).length := by
      rw [length_jitdumpTag_append]; omega
    have htake : (jitdumpTag ++ payload).take 7 = jitdumpTag := rfl
    have hdrop : (jitdumpTag ++ payload).drop 7 = payload := rfl
    have hne : jitdumpTag ≠ myTaskTag := by decide
    have hguard : ¬(5 ≤ payload.length ∧
        payload.getD 4 0 ≤ payload.length - 5) := by omega
    simp only [next_message, if_pos h7, htake, hdrop, if_neg hne, if_pos rfl,
      if_neg hguard, if_true, eq_self_iff_true]

/-- C10 witness: the theorem applied to one concrete malformed datagram of
each listed shape. -/
theorem C10_witness :
    next_message [1, 2, 3] [] = none ∧
      next_message (myTaskTag ++ [1]) [4, 5] = none ∧
      next_message (myTaskTag ++ [1, 2, 3, 4]) [9] = none ∧
      next_message (jitdumpTag ++ [0, 0, 0, 0, 200, 1, 2]) [] = none :=
  ⟨C10_next_message_panics.1 [1, 2, 3] [] (by decide),
    C10_next_message_panics.2.1 [1] [4, 5] (by decide),
    C10_next_message_panics.2.2.1 [1, 2, 3, 4] [9] (by decide),
    C10_next_message_panics.2.2.2 [0, 0, 0, 0, 200, 1, 2] [] (by decide)⟩

/-! ### Mach-O symbolication data model (`src/lib/src/macho.rs`)

Objects parsed by the `object` crate are embedded by the data the repository's
code reads from them: segments (name and address), symbols (name and address),
and the linker's object map (the list of source object names and the entries
mapping symbol ranges to them). Symbol and object names are byte strings
modelled as `List Char`; a `name()` call that errors is modelled as `none`. -/
structure AddressPair where
  original_address : Nat
  address_in_this_object : Nat
deriving DecidableEq

structure AddressWithOffset where
  original_address : Nat
  offset_from_function_start : Nat
deriving DecidableEq

structure ObjectMapEntry where
  object_index : Nat
  name : List Char
  address : Nat
  size : Nat
deriving DecidableEq

structure MachoSegment where
  name : Option String
  address : Nat
deriving DecidableEq

structure MachoSymbol where
  name : Option (List Char)
  address : Nat
deriving DecidableEq

structure MachoObject where
  segments : List MachoSegment
  symbols : List MachoSymbol
  objectMapObjects : List (List Char)
  objectMapSymbols : List ObjectMapEntry

/-- The ordering by which address-pair lists are kept sorted. -/
def pairLE (a b : AddressPair) : Prop :=
  a.address_in_this_object ≤ b.address_in_this_object

instance : DecidableRel pairLE := fun a b => Nat.decLe _ _

/-- Embedding of `make_address_pairs_for_root_object` (lines 184–216): find
the `__TEXT` segment's vmaddr (0 when absent) and pair every query address `a`
with `vmaddr + a`, in query order. -/
def make_address_pairs_for_root_object (addresses : List Nat) (o : MachoObject) :
    List AddressPair :=
  let vmaddr := ((o.segments.find? (fun s => s.name = some "__TEXT")).map
    (fun s => s.address)).getD 0
  addresses.map (fun a =>
    { original_address := a, address_in_this_object := vmaddr + a })

/-- `FunctionsWithAddresses`: a map from function-name byte strings to the
addresses under that function, embedded as an association list. -/
def FunctionsWithAddresses := List (List Char × List AddressWithOffset)

/-- `HashMap::remove` on a `FunctionsWithAddresses`: the value under the key,
if any, together with the map without that entry. -/
def famGetRemove (m : List (List Char × List AddressWithOffset)) (name : List Char) :
    Option (List AddressWithOffset) × List (List Char × List AddressWithOffset) :=
  match m.find? (fun kv => kv.1 = name) with
  | none => (none, m)
  | some kv => (some kv.2, m.eraseP (fun kv => kv.1 = name))

/-- The symbol-iteration loop of `translate_addresses_to_object`
(lines 243–268): for every symbol with a readable name whose name is present
in `functions`, remove that entry and emit one address pair per recorded
address, rebased at the symbol's address plus the recorded offset. -/
def translateLoop :
    List MachoSymbol → List (List Char × List AddressWithOffset) → List AddressPair
  | [], _ => []
  | sym :: restSyms, functions =>
    match sym.name with
    | none => translateLoop restSyms functions
    | some symbol_name =>
      match famGetRemove functions symbol_name with
      | (none, _) => translateLoop restSyms functions
      | (some addresses, functions') =>
        (addresses.map fun awo =>
          { original_address := awo.original_address
            address_in_this_object :=
              sym.address + awo.offset_from_function_start }) ++
          translateLoop restSyms functions'

/-- Embedding of `translate_addresses_to_object` (lines 243–271): the loop
above followed by `sort_by_key(|ap| ap.address_in_this_object)` (a stable
sort, embedded as `mergeSort`). -/
def translate_addresses_to_object (o : MachoObject)
    (functions : List (List Char × List AddressWithOffset)) : List AddressPair :=
  (translateLoop o.symbols functions).mergeSort
    (fun a b => a.address_in_this_object ≤ b.address_in_this_object)

theorem sorted_mergeSort_pairLE (l : List AddressPair) :
    (l.mergeSort
      (fun a b => a.address_in_this_object ≤ b.address_in_this_object)).Pairwise
      pairLE := by
  have h := @List.sorted_mergeSort AddressPair
    (fun a b : AddressPair =>
      decide (a.address_in_this_object ≤ b.address_in_this_object))
    (fun a b c h1 h2 => by simp only [decide_eq_true_eq] at h1 h2 ⊢; omega)
    (fun a b => by
      simp only [Bool.or_eq_true, decide_eq_true_eq]
      omega)
    l
  exact h.imp (fun {a b} hd => by
    simpa only [decide_eq_true_eq] using hd)

/-- C9 (amended): for every query address list *sorted ascending*, the
root-object pair list produced by `make_address_pairs_for_root_object` is
sorted by `address_in_this_object`, and for every external object and function
map the list produced by `translate_addresses_to_object` is sorted by
`address_in_this_object`. -/
theorem C9_address_pairs_sorted (o : MachoObject) (addresses : List Nat)
    (functions : List (List Char × List AddressWithOffset))
    (hsorted : addresses.Pairwise (· ≤ ·)) :
    (make_address_pairs_for_root_object addresses o).Pairwise pairLE ∧
      (translate_addresses_to_object o functions).Pairwise pairLE := by
  constructor
  · exact List.Pairwise.map _ (fun a b hab => by
      simp only [pairLE]
      omega) hsorted
  · exact sorted_mergeSort_pairLE _

/-- C9 counterexample to the claim as stated ("for every query address list,
in any order"): `make_address_pairs_for_root_object` maps the query addresses
in input order without sorting, so the unsorted query `[2, 1]` yields an
unsorted pair list. -/
theorem C9_counterexample :
    make_address_pairs_for_root_object [2, 1]
        { segments := [], symbols := [], objectMapObjects := [],
          objectMapSymbols := [] } =
      [{ original_address := 2, address_in_this_object := 2 },
        { original_address := 1, address_in_this_object := 1 }] ∧
      ¬(make_address_pairs_for_root_object [2, 1]
          { segments := [], symbols := [], objectMapObjects := [],
            objectMapSymbols := [] }).Pairwise pairLE := by
  constructor
  · rfl
  · intro h
    have h' : List.Pairwise pairLE
        [{ original_address := 2, address_in_this_object := 2 },
          { original_address := 1, address_in_this_object := 1 }] := h
    rw [List.pairwise_cons] at h'
    have := h'.1 _ (List.mem_singleton.mpr rfl)
    simp only [pairLE] at this
    omega

/-- C9 witness: the amended theorem applied to a sorted query list and a
concrete external object. -/
theorem C9_witness :
    (make_address_pairs_for_root_object [1, 2]
        { segments := [{ name := some "__TEXT", address := 100 }],
          symbols := [{ name := some ['f'], address := 50 }],
          objectMapObjects := [], objectMapSymbols := [] }).Pairwise pairLE ∧
      (translate_addresses_to_object
          { segments := [{ name := some "__TEXT", address := 100 }],
            symbols := [{ name := some ['f'], address := 50 }],
            objectMapObjects := [], objectMapSymbols := [] }
          [(['f'], [{ original_address := 7, offset_from_function_start := 3 }])]).Pairwise
        pairLE :=
  C9_address_pairs_sorted
    { segments := [{ name := some "__TEXT", address := 100 }],
      symbols := [{ name := some ['f'], address := 50 }],
      objectMapObjects := [], objectMapSymbols := [] } [1, 2]
    [(['f'], [{ original_address := 7, offset_from_function_start := 3 }])]
    (by decide)

/-! ### The two-pointer matcher (`match_funs_to_addresses`, lines 434–483)

The loop advances either the address iterator or the function iterator on each
step, so it is embedded with a fuel argument bounded by the sum of the two
list lengths; `match_funs_to_addresses` supplies sufficient fuel. The flag
`cur_fun_is_last_vec_element` and the push/append-to-last behaviour are
translated exactly. -/
structure MatchedFunctionWithAddresses where
  object_index : Nat
  fun_name : List Char
  addresses : List AddressWithOffset
deriving DecidableEq

/-- `matches.last_mut().unwrap().addresses.push(awo)`. On an empty list (which
the code's flag discipline makes unreachable — the flag is only set right
after a push) this is the identity. -/
def appendToLast (ms : List MatchedFunctionWithAddresses) (awo : AddressWithOffset) :
    List MatchedFunctionWithAddresses :=
  match ms with
  | [] => []
  | [m] => [{ m with addresses := m.addresses ++ [awo] }]
  | m :: rest => m :: appendToLast rest awo

def matchLoop :
    Nat → List AddressPair → List ObjectMapEntry → Bool →
      List MatchedFunctionWithAddresses → List MatchedFunctionWithAddresses
  | 0, _, _, _, acc => acc
  | _ + 1, [], _, _, acc => acc
  | _ + 1, _ :: _, [], _, acc => acc
  | fuel + 1, ap :: restA, f :: restF, lastIsF, acc =>
    if ap.address_in_this_object < f.address then
      matchLoop fuel restA (f :: restF) lastIsF acc
    else if f.address + f.size ≤ ap.address_in_this_object then
      matchLoop fuel (ap :: restA) restF false acc
    else
      if lastIsF then
        matchLoop fuel restA (f :: restF) true
          (appendToLast acc
            { original_address := ap.original_address
              offset_from_function_start :=
                ap.address_in_this_object - f.address })
      else
        matchLoop fuel restA (f :: restF) true
          (acc ++ [{ object_index := f.object_index, fun_name := f.name
                     addresses := [{ original_address := ap.original_address
                                     offset_from_function_start :=
                                       ap.address_in_this_object - f.address }] }])

/-- Embedding of `match_funs_to_addresses`. -/
def match_funs_to_addresses (function_symbols : List ObjectMapEntry)
    (addresses : List AddressPair) : List MatchedFunctionWithAddresses :=
  matchLoop (addresses.length + function_symbols.length) addresses
    function_symbols false []

/-- The per-address naive reference from the claim: for each address
independently, the first function in the (sorted) object map whose half-open
range `[address, address + size)` contains the in-object address, together
with the offset; an address in no range is unmatched. -/
def naive_match_for_address (funs : List ObjectMapEntry) (ap : AddressPair) :
    Option (Nat × List Char × Nat × Nat) :=
  (funs.find? (fun f => f.address ≤ ap.address_in_this_object ∧
      ap.address_in_this_object < f.address + f.size)).map
    (fun f => (f.object_index, f.name, ap.original_address,
      ap.address_in_this_object - f.address))

def naive_assignments (funs : List ObjectMapEntry) (addrs : List AddressPair) :
    List (Nat × List Char × Nat × Nat) :=
  addrs.filterMap (naive_match_for_address funs)

/-- The `(object_index, function, original_address, offset)` tuples recorded
by the matcher, flattened in recorded order. -/
def flatten_matches (ms : List MatchedFunctionWithAddresses) :
    List (Nat × List Char × Nat × Nat) :=
  ms.flatMap (fun m => m.addresses.map (fun awo =>
    (m.object_index, m.fun_name, awo.original_address,
      awo.offset_from_function_start)))

theorem flatten_matches_append (ms ns : List MatchedFunctionWithAddresses) :
    flatten_matches (ms ++ ns) = flatten_matches ms ++ flatten_matches ns :=
  List.flatMap_append ms ns _

theorem appendToLast_concat (pre : List MatchedFunctionWithAddresses)
    (m : MatchedFunctionWithAddresses) (awo : AddressWithOffset) :
    appendToLast (pre ++ [m]) awo =
      pre ++ [{ m with addresses := m.addresses ++ [awo] }] := by
  induction pre with
  | nil => rfl
  | cons p rest ih =>
    have hstep : appendToLast ((p :: rest) ++ [m]) awo =
        p :: appendToLast (rest ++ [m]) awo := by
      cases rest with
      | nil => rfl
      | cons r rs => rfl
    rw [hstep, ih]
    rfl

theorem naive_match_cons_none (f : ObjectMapEntry) (restF : List ObjectMapEntry)
    (ap : AddressPair)
    (h : ¬(f.address ≤ ap.address_in_this_object ∧
      ap.address_in_this_object < f.address + f.size)) :
    naive_match_for_address (f :: restF) ap = naive_match_for_address restF ap := by
  unfold naive_match_for_address
  rw [List.find?_cons]
  have hp : (decide (f.address ≤ ap.address_in_this_object ∧
      ap.address_in_this_object < f.address + f.size)) = false := by
    simpa using h
  rw [hp]

theorem naive_match_cons_some (f : ObjectMapEntry) (restF : List ObjectMapEntry)
    (ap : AddressPair)
    (h : f.address ≤ ap.address_in_this_object ∧
      ap.address_in_this_object < f.address + f.size) :
    naive_match_for_address (f :: restF) ap =
      some (f.object_index, f.name, ap.original_address,
        ap.address_in_this_object - f.address) := by
  unfold naive_match_for_address
  rw [List.find?_cons]
  have hp : (decide (f.address ≤ ap.address_in_this_object ∧
      ap.address_in_this_object < f.address + f.size)) = true := by
    simpa using h
  rw [hp]
  rfl

theorem naive_assignments_cons_skip (f : ObjectMapEntry)
    (restF : List ObjectMapEntry) (A : List AddressPair)
    (h : ∀ ap ∈ A, ¬(f.address ≤ ap.address_in_this_object ∧
      ap.address_in_this_object < f.address + f.size)) :
    naive_assignments (f :: restF) A = naive_assignments restF A := by
  unfold naive_assignments
  exact List.filterMap_congr (fun ap hap => naive_match_cons_none f restF ap (h ap hap))

theorem naive_assignments_head_none (F : List ObjectMapEntry) (ap : AddressPair)
    (restA : List AddressPair)
    (h : naive_match_for_address F ap = none) :
    naive_assignments F (ap :: restA) = naive_assignments F restA := by
  unfold naive_assignments
  rw [List.filterMap_cons, h]

theorem naive_assignments_head_some (F : List ObjectMapEntry) (ap : AddressPair)
    (restA : List AddressPair) (t : Nat × List Char × Nat × Nat)
    (h : naive_match_for_address F ap = some t) :
    naive_assignments F (ap :: restA) = t :: naive_assignments F restA := by
  unfold naive_assignments
  rw [List.filterMap_cons, h]

/-- The accumulator/flag invariant of the two-pointer loop: flattening the
result extends the flattened accumulator with exactly the tuples the naive
per-address reference produces on the remaining inputs, given that both
remaining lists are sorted and, when the flag is set, the accumulator ends
with an entry for the current head function. -/
theorem matchLoop_flatten_naive :
    ∀ (fuel : Nat) (A : List AddressPair) (F : List ObjectMapEntry)
      (lastF : Bool) (acc : List MatchedFunctionWithAddresses),
      A.length + F.length ≤ fuel →
      A.Pairwise pairLE →
      F.Pairwise (fun f g => f.address ≤ g.address) →
      (lastF = true → ∀ f restF, F = f :: restF →
        ∃ pre m, acc = pre ++ [m] ∧ m.object_index = f.object_index ∧
          m.fun_name = f.name) →
      flatten_matches (matchLoop fuel A F lastF acc) =
        flatten_matches acc ++ naive_assignments F A := by
  intro fuel
  induction fuel with
  | zero =>
    intro A F lastF acc hf hA hF hlast
    have hAnil : A = [] := List.eq_nil_of_length_eq_zero (by omega)
    subst hAnil
    simp [matchLoop, naive_assignments]
  | succ n ih =>
    intro A F lastF acc hf hA hF hlast
    cases A with
    | nil => simp [matchLoop, naive_assignments]
    | cons ap restA =>
      cases F with
      | nil =>
        simp [matchLoop, naive_assignments, naive_match_for_address]
      | cons f restF =>
        rw [matchLoop]
        by_cases h1 : ap.address_in_this_object < f.address
        · rw [if_pos h1]
          have hnone : naive_match_for_address (f :: restF) ap = none := by
            unfold naive_match_for_address
            rw [Option.map_eq_none']
            apply List.find?_eq_none.mpr
            intro g hg
            simp only [decide_eq_true_eq, not_and, not_lt]
            intro hga
            have hfg : f.address ≤ g.address := by
              rcases List.mem_cons.mp hg with rfl | hgmem
              · omega
              · exact (List.pairwise_cons.mp hF).1 g hgmem
            omega
          rw [naive_assignments_head_none _ _ _ hnone]
          exact ih restA (f :: restF) lastF acc (by simp at hf ⊢; omega)
            (List.pairwise_cons.mp hA).2 hF hlast
        · rw [if_neg h1]
          by_cases h2 : f.address + f.size ≤ ap.address_in_this_object
          · rw [if_pos h2]
            have hskip : naive_assignments (f :: restF) (ap :: restA) =
                naive_assignments restF (ap :: restA) := by
              apply naive_assignments_cons_skip
              intro ap' hap'
              simp only [not_and, not_lt]
              intro hfa
              have hge : ap.address_in_this_object ≤ ap'.address_in_this_object := by
                rcases List.mem_cons.mp hap' with rfl | hmem
                · omega
                · exact (List.pairwise_cons.mp hA).1 ap' hmem
              omega
            rw [hskip]
            exact ih (ap :: restA) restF false acc (by simp at hf ⊢; omega) hA
              (List.pairwise_cons.mp hF).2 (fun hcon => by simp at hcon)
          · rw [if_neg h2]
            have hcontains : f.address ≤ ap.address_in_this_object ∧
                ap.address_in_this_object < f.address + f.size := by omega
            have hsome := naive_match_cons_some f restF ap hcontains
            rw [naive_assignments_head_some _ _ _ _ hsome]
            cases hl : lastF with
            | true =>
              rw [if_pos rfl]
              obtain ⟨pre, m, hacc, hoi, hnm⟩ := hlast hl f restF rfl
              subst hacc
              rw [appendToLast_concat]
              have hih := ih restA (f :: restF) true
                (pre ++ [{ m with addresses := m.addresses ++
                  [{ original_address := ap.original_address
                     offset_from_function_start :=
                       ap.address_in_this_object - f.address }] }])
                (by simp at hf ⊢; omega) (List.pairwise_cons.mp hA).2 hF
                (fun _ f' restF' heq => by
                  injection heq with heq1 heq2
                  subst heq1
                  exact ⟨pre,
                    { m with addresses := m.addresses ++
                      [{ original_address := ap.original_address
                         offset_from_function_start :=
                           ap.address_in_this_object - f.address }] },
                    rfl, hoi, hnm⟩)
              rw [hih]
              simp [flatten_matches, List.flatMap_append, hoi, hnm]
            | false =>
              rw [if_neg (by simp)]
              have hih := ih restA (f :: restF) true
                (acc ++ [{ object_index := f.object_index, fun_name := f.name
                           addresses := [{ original_address := ap.original_address
                                           offset_from_function_start :=
                                             ap.address_in_this_object -
                                               f.address }] }])
                (by simp at hf ⊢; omega) (List.pairwise_cons.mp hA).2 hF
                (fun _ f' restF' heq => by
                  injection heq with heq1 heq2
                  subst heq1
                  exact ⟨acc,
                    { object_index := f.object_index, fun_name := f.name
                      addresses := [{ original_address := ap.original_address
                                      offset_from_function_start :=
                                        ap.address_in_this_object - f.address }] },
                    rfl, rfl, rfl⟩)
              rw [hih]
              simp [flatten_matches, List.flatMap_append]

/-- With pairwise-disjoint function ranges, the first containing function the
naive reference finds is the unique containing one. -/
theorem naive_match_unique :
    ∀ (funs : List ObjectMapEntry) (ap : AddressPair),
      funs.Pairwise (fun f g => f.address + f.size ≤ g.address) →
      ∀ g ∈ funs, g.address ≤ ap.address_in_this_object →
        ap.address_in_this_object < g.address + g.size →
        naive_match_for_address funs ap =
          some (g.object_index, g.name, ap.original_address,
            ap.address_in_this_object - g.address) := by
  intro funs
  induction funs with
  | nil =>
    intro ap _ g hg _ _
    exact absurd hg (List.not_mem_nil g)
  | cons h t iht =>
    intro ap hdisj g hg hg1 hg2
    rcases List.mem_cons.mp hg with rfl | hgt
    · exact naive_match_cons_some g t ap ⟨hg1, hg2⟩
    · have hd := (List.pairwise_cons.mp hdisj).1 g hgt
      rw [naive_match_cons_none h t ap (by omega)]
      exact iht ap (List.pairwise_cons.mp hdisj).2 g hgt hg1 hg2

/-- C4: for an object-map symbol list sorted by address and an address-pair
list sorted by in-object address, the linear two-pointer matcher records
exactly the same `(object_index, function, original_address, offset)`
assignments as the naive reference that, for each address independently, takes
the containing function from the sorted symbol list; and when function ranges
are pairwise disjoint (so the containing function is unique), the naive
reference returns precisely that unique function's assignment. -/
theorem C4_two_pointer_equiv (function_symbols : List ObjectMapEntry)
    (addresses : List AddressPair)
    (hA : addresses.Pairwise pairLE)
    (hF : function_symbols.Pairwise (fun f g => f.address ≤ g.address)) :
    flatten_matches (match_funs_to_addresses function_symbols addresses) =
      naive_assignments function_symbols addresses ∧
      (function_symbols.Pairwise (fun f g => f.address + f.size ≤ g.address) →
        ∀ ap g, g ∈ function_symbols →
          g.address ≤ ap.address_in_this_object →
          ap.address_in_this_object < g.address + g.size →
          naive_match_for_address function_symbols ap =
            some (g.object_index, g.name, ap.original_address,
              ap.address_in_this_object - g.address)) := by
  constructor
  · have h := matchLoop_flatten_naive (addresses.length + function_symbols.length)
      addresses function_symbols false [] (le_refl _) hA hF
      (fun hcon => by simp at hcon)
    simpa [match_funs_to_addresses, flatten_matches] using h
  · intro hdisj ap g hg hg1 hg2
    exact naive_match_unique function_symbols ap hdisj g hg hg1 hg2

example :
    flatten_matches (match_funs_to_addresses
        [{ object_index := 0, name := ['f'], address := 10, size := 5 },
          { object_index := 1, name := ['g'], address := 20, size := 5 }]
        [{ original_address := 100, address_in_this_object := 12 },
          { original_address := 101, address_in_this_object := 13 },
          { original_address := 102, address_in_this_object := 22 }]) =
      [(0, ['f'], 100, 2), (0, ['f'], 101, 3), (1, ['g'], 102, 2)] := by
  decide

/-- C4 witness: the theorem applied at sorted concrete inputs, including the
disjoint-ranges uniqueness part. -/
theorem C4_witness :
    flatten_matches (match_funs_to_addresses
        [{ object_index := 0, name := ['f'], address := 10, size := 5 },
          { object_index := 1, name := ['g'], address := 20, size := 5 }]
        [{ original_address := 100, address_in_this_object := 12 },
          { original_address := 102, address_in_this_object := 22 }]) =
      naive_assignments
        [{ object_index := 0, name := ['f'], address := 10, size := 5 },
          { object_index := 1, name := ['g'], address := 20, size := 5 }]
        [{ original_address := 100, address_in_this_object := 12 },
          { original_address := 102, address_in_this_object := 22 }] ∧
      naive_match_for_address
          [{ object_index := 0, name := ['f'], address := 10, size := 5 },
            { object_index := 1, name := ['g'], address := 20, size := 5 }]
          { original_address := 100, address_in_this_object := 12 } =
        some (0, ['f'], 100, 2) :=
  ⟨(C4_two_pointer_equiv
      [{ object_index := 0, name := ['f'], address := 10, size := 5 },
        { object_index := 1, name := ['g'], address := 20, size := 5 }]
      [{ original_address := 100, address_in_this_object := 12 },
        { original_address := 102, address_in_this_object := 22 }]
      (by decide) (by decide)).1,
    (C4_two_pointer_equiv
      [{ object_index := 0, name := ['f'], address := 10, size := 5 },
        { object_index := 1, name := ['g'], address := 20, size := 5 }]
      [{ original_address := 100, address_in_this_object := 12 },
        { original_address := 102, address_in_this_object := 22 }]
      (by decide) (by decide)).2 (by decide)
      { original_address := 100, address_in_this_object := 12 }
      { object_index := 0, name := ['f'], address := 10, size := 5 }
      (by decide) (by decide) (by decide)⟩

/-! ### Grouping matched functions into external object references
(`collect_debug_info_and_object_references`, lines 340–416)

`HashMap`s are embedded as association lists whose `insert` replaces the first
entry with the same key (or appends); iteration order is first-insertion order
— a deterministic choice, since Rust's `HashMap` iteration order is arbitrary
and the properties proved here are order-insensitive. `str::from_utf8` on
object names is the identity on the byte strings (`List Char`). -/
def alInsert {α β : Type} [DecidableEq α] :
    List (α × β) → α → β → List (α × β)
  | [], k, v => [(k, v)]
  | kv :: rest, k, v =>
    if kv.1 = k then (k, v) :: rest else kv :: alInsert rest k v

/-- `entry(k).or_insert_with(...)` followed by an in-place modification `f` of
the entry's value; a missing key inserts the default `d` (the result of
applying the modification to the fresh empty value). -/
def alUpdate {α β : Type} [DecidableEq α] :
    List (α × β) → α → (β → β) → β → List (α × β)
  | [], k, _, d => [(k, d)]
  | kv :: rest, k, f, d =>
    if kv.1 = k then (k, f kv.2) :: rest else kv :: alUpdate rest k f d

/-- `trim_start_matches('(')` then `trim_end_matches(')')`: strip every
leading `(` and every trailing `)`. -/
def trimParens (cs : List Char) : List Char :=
  ((cs.dropWhile (fun c => c = '(')).reverse.dropWhile (fun c => c = ')')).reverse

/-- `object_name.find('(')` plus `split_at`: a regular object path, or an
archive path together with the member name between the parentheses. -/
def parseObjectName (name : List Char) : Sum (List Char) (List Char × List Char) :=
  match name.findIdx? (fun c => c = '(') with
  | none => Sum.inl name
  | some i => Sum.inr (name.take i, trimParens (name.drop i))

/-- The two shapes of `ObjectReference`: a regular object file reference, or a
static-archive reference carrying a member-name → functions map. -/
inductive ObjectReference where
  | Regular (path : List Char)
      (functions : List (List Char × List AddressWithOffset))
  | Archive (path : List Char)
      (archive_info : List (List Char × List (List Char × List AddressWithOffset)))

/-- The `external_funs_by_object` accumulation: for every matched function,
`entry(object_index).or_insert_with(FunctionsWithAddresses::new)
.insert(fun_name, addresses)`. -/
def groupByObject (ms : List MatchedFunctionWithAddresses) :
    List (Nat × List (List Char × List AddressWithOffset)) :=
  ms.foldl (fun acc m =>
    alUpdate acc m.object_index (fun fns => alInsert fns m.fun_name m.addresses)
      [(m.fun_name, m.addresses)]) []

/-- One step of the archives/regular-objects partition: look up the object
name, parse it, and insert into the archive map or the regular map. Out-of-
range object indices (which panic in the code) read as the empty name. -/
def partitionStep (objects : List (List Char))
    (st : List (List Char × List (List Char × List (List Char × List AddressWithOffset))) ×
      List (List Char × List (List Char × List AddressWithOffset)))
    (entry : Nat × List (List Char × List AddressWithOffset)) :
    List (List Char × List (List Char × List (List Char × List AddressWithOffset))) ×
      List (List Char × List (List Char × List AddressWithOffset)) :=
  match parseObjectName (objects.getD entry.1 []) with
  | Sum.inl path => (st.1, alInsert st.2 path entry.2)
  | Sum.inr (path, member) =>
    (alUpdate st.1 path (fun info => alInsert info member entry.2)
      [(member, entry.2)], st.2)

/-- The archives/regular split followed by enqueuing: archives first, then
regular objects (lines 381–413). -/
def partitionRefs (objects : List (List Char))
    (grouped : List (Nat × List (List Char × List AddressWithOffset))) :
    List ObjectReference :=
  let st := grouped.foldl (partitionStep objects) ([], [])
  st.1.map (fun kv => ObjectReference.Archive kv.1 kv.2) ++
    st.2.map (fun kv => ObjectReference.Regular kv.1 kv.2)

/-- The original addresses recorded across all matched functions, in recorded
order (the `original_addresses_found_in_external_objects` set is the set of
these). -/
def foundOriginals (ms : List MatchedFunctionWithAddresses) : List Nat :=
  ms.flatMap (fun m => m.addresses.map (fun awo => awo.original_address))

/-- Embedding of `collect_debug_info_and_object_references`: sort the object
map's symbols by address, run the two-pointer matcher, keep the addresses not
matched into any external function as internal (they go to the local DWARF
collector), and turn the matched groups into enqueued object references. The
pair returned is (internal addresses, enqueued references). -/
def collect_debug_info_and_object_references (o : MachoObject)
    (addresses : List AddressPair) :
    List AddressPair × List ObjectReference :=
  let object_map_symbols :=
    o.objectMapSymbols.mergeSort (fun a b => a.address ≤ b.address)
  let functions_with_addresses :=
    match_funs_to_addresses object_map_symbols addresses
  let found := foundOriginals functions_with_addresses
  let internal_addresses :=
    addresses.filter (fun ap => !(found.contains ap.original_address))
  (internal_addresses,
    partitionRefs o.objectMapObjects (groupByObject functions_with_addresses))

/-- The original addresses recorded in one enqueued reference. -/
def refOriginals : ObjectReference → List Nat
  | .Regular _ functions =>
    functions.flatMap (fun kv => kv.2.map (fun awo => awo.original_address))
  | .Archive _ info =>
    info.flatMap (fun mkv =>
      mkv.2.flatMap (fun kv => kv.2.map (fun awo => awo.original_address)))

/-- The original addresses recorded across all enqueued references. -/
def recordedOriginals (refs : List ObjectReference) : List Nat :=
  refs.flatMap refOriginals

/-- The `(object_index, fun_name)` keys of a list of matched functions. -/
def matchKeys (ms : List MatchedFunctionWithAddresses) : List (Nat × List Char) :=
  ms.map (fun m => (m.object_index, m.fun_name))

/-- The `(object_index, name)` keys of a list of object-map entries. -/
def funKeys (fs : List ObjectMapEntry) : List (Nat × List Char) :=
  fs.map (fun f => (f.object_index, f.name))

theorem matchKeys_appendToLast (ms : List MatchedFunctionWithAddresses)
    (awo : AddressWithOffset) :
    matchKeys (appendToLast ms awo) = matchKeys ms := by
  induction ms with
  | nil => rfl
  | cons m rest ih =>
    cases rest with
    | nil => rfl
    | cons r rs =>
      have hstep : appendToLast (m :: r :: rs) awo =
          m :: appendToLast (r :: rs) awo := rfl
      rw [hstep]
      simp only [matchKeys, List.map_cons] at ih ⊢
      rw [ih]

/-- Each entry of the matcher's output consumes a distinct object-map entry,
in order: the keys of the produced matches extend the accumulator's keys by a
sublist of the (remaining) function keys — with the head function excluded
while the append-to-last flag is set, since a set flag means the head function
already has its entry. -/
theorem matchLoop_keys :
    ∀ (fuel : Nat) (A : List AddressPair) (F : List ObjectMapEntry)
      (lastF : Bool) (acc : List MatchedFunctionWithAddresses),
      ∃ S, matchKeys (matchLoop fuel A F lastF acc) = matchKeys acc ++ S ∧
        S.Sublist (funKeys (cond lastF F.tail F)) := by
  intro fuel
  induction fuel with
  | zero =>
    intro A F lastF acc
    exact ⟨[], by simp [matchLoop, matchKeys], List.nil_sublist _⟩
  | succ n ih =>
    intro A F lastF acc
    cases A with
    | nil => exact ⟨[], by simp [matchLoop, matchKeys], List.nil_sublist _⟩
    | cons ap restA =>
      cases F with
      | nil => exact ⟨[], by simp [matchLoop, matchKeys], List.nil_sublist _⟩
      | cons f restF =>
        rw [matchLoop]
        by_cases h1 : ap.address_in_this_object < f.address
        · rw [if_pos h1]
          exact ih restA (f :: restF) lastF acc
        · rw [if_neg h1]
          by_cases h2 : f.address + f.size ≤ ap.address_in_this_object
          · rw [if_pos h2]
            obtain ⟨S, hS, hsub⟩ := ih (ap :: restA) restF false acc
            refine ⟨S, hS, ?_⟩
            cases lastF with
            | true => exact hsub
            | false =>
              exact hsub.trans ((List.sublist_cons_self f restF).map _)
          · rw [if_neg h2]
            cases lastF with
            | true =>
              rw [if_pos rfl]
              obtain ⟨S, hS, hsub⟩ := ih restA (f :: restF) true
                (appendToLast acc
                  { original_address := ap.original_address
                    offset_from_function_start :=
                      ap.address_in_this_object - f.address })
              refine ⟨S, ?_, hsub⟩
              rw [hS, matchKeys_appendToLast]
            | false =>
              rw [if_neg (by simp)]
              obtain ⟨S, hS, hsub⟩ := ih restA (f :: restF) true
                (acc ++ [{ object_index := f.object_index, fun_name := f.name
                           addresses :=
                             [{ original_address := ap.original_address
                                offset_from_function_start :=
                                  ap.address_in_this_object - f.address }] }])
              refine ⟨(f.object_index, f.name) :: S, ?_, ?_⟩
              · rw [hS]
                simp [matchKeys, List.map_append]
              · exact List.Sublist.cons₂ _ hsub

/-- The matcher's keys form a sublist of the sorted object map's keys. -/
theorem match_funs_keys_sublist (funs : List ObjectMapEntry)
    (addrs : List AddressPair) :
    (matchKeys (match_funs_to_addresses funs addrs)).Sublist (funKeys funs) := by
  obtain ⟨S, hS, hsub⟩ :=
    matchLoop_keys (addrs.length + funs.length) addrs funs false []
  rw [match_funs_to_addresses, hS]
  simpa [matchKeys] using hsub

theorem alInsert_fresh {α β : Type} [DecidableEq α] (m : List (α × β)) (k : α)
    (v : β) (h : ∀ kv ∈ m, kv.1 ≠ k) : alInsert m k v = m ++ [(k, v)] := by
  induction m with
  | nil => rfl
  | cons kv rest ih =>
    rw [alInsert, if_neg (h kv (List.mem_cons_self kv rest)),
      ih (fun kv' h' => h kv' (List.mem_cons_of_mem _ h'))]
    rfl

theorem alUpdate_fresh {α β : Type} [DecidableEq α] (m : List (α × β)) (k : α)
    (f : β → β) (d : β) (h : ∀ kv ∈ m, kv.1 ≠ k) :
    alUpdate m k f d = m ++ [(k, d)] := by
  induction m with
  | nil => rfl
  | cons kv rest ih =>
    rw [alUpdate, if_neg (h kv (List.mem_cons_self kv rest)),
      ih (fun kv' h' => h kv' (List.mem_cons_of_mem _ h'))]
    rfl

/-- Keys of an `alUpdate`: untouched when present, appended when absent. -/
theorem alUpdate_keys {α β : Type} [DecidableEq α] (m : List (α × β)) (k : α)
    (f : β → β) (d : β) :
    (alUpdate m k f d).map Prod.fst = m.map Prod.fst ∨
      ((∀ kv ∈ m, kv.1 ≠ k) ∧
        (alUpdate m k f d).map Prod.fst = m.map Prod.fst ++ [k]) := by
  induction m with
  | nil => exact Or.inr ⟨fun kv h => absurd h (List.not_mem_nil kv), rfl⟩
  | cons kv rest ih =>
    by_cases hk : kv.1 = k
    · left
      rw [alUpdate, if_pos hk]
      simp [hk]
    · rcases ih with ih | ⟨ihfresh, ih⟩
      · left
        rw [alUpdate, if_neg hk]
        simp only [List.map_cons, ih]
      · right
        refine ⟨?_, ?_⟩
        · intro kv' h'
          rcases List.mem_cons.mp h' with rfl | h'
          · exact hk
          · exact ihfresh kv' h'
        · rw [alUpdate, if_neg hk]
          simp only [List.map_cons, ih, List.cons_append]

/-- The `(outer key, inner key)` pairs of a two-level association map. -/
def nestedPairs {α γ δ : Type} (m : List (α × List (γ × δ))) : List (α × γ) :=
  m.flatMap (fun kv => kv.2.map (fun ikv => (kv.1, ikv.1)))

/-- The flattened contents of a two-level association map under a projection
of the inner values. -/
def nestedContents {α γ δ : Type} (g : δ → List Nat)
    (m : List (α × List (γ × δ))) : List Nat :=
  m.flatMap (fun kv => kv.2.flatMap (fun ikv => g ikv.2))

theorem perm_middle_to_end {γ : Type} (a b c : List γ) :
    ((a ++ b) ++ c).Perm ((a ++ c) ++ b) := by
  rw [List.append_assoc, List.append_assoc]
  exact List.Perm.append_left a (List.perm_append_comm)

/-- Inserting a value under a fresh `(outer, inner)` key pair through
`alUpdate`/`alInsert` extends the pair list and the contents by exactly that
pair and that value's contents, up to permutation. -/
theorem alUpdate_alInsert_spec {α γ δ : Type} [DecidableEq α] [DecidableEq γ]
    (g : δ → List Nat) (m : List (α × List (γ × δ))) (k : α) (ik : γ) (v : δ)
    (hfresh : (k, ik) ∉ nestedPairs m) :
    (nestedPairs (alUpdate m k (fun inner => alInsert inner ik v)
        [(ik, v)])).Perm (nestedPairs m ++ [(k, ik)]) ∧
      (nestedContents g (alUpdate m k (fun inner => alInsert inner ik v)
        [(ik, v)])).Perm (nestedContents g m ++ g v) := by
  induction m with
  | nil =>
    constructor
    · simp [alUpdate, nestedPairs]
    · simp [alUpdate, nestedContents]
  | cons kv rest ih =>
    by_cases hk : kv.1 = k
    · have hinner : ∀ ikv ∈ kv.2, ikv.1 ≠ ik := by
        intro ikv hikv heq
        apply hfresh
        unfold nestedPairs
        rw [List.flatMap_cons]
        apply List.mem_append_left
        rw [← hk, ← heq]
        exact List.mem_map.mpr ⟨ikv, hikv, rfl⟩
      rw [alUpdate, if_pos hk, alInsert_fresh kv.2 ik v hinner]
      constructor
      · unfold nestedPairs
        rw [List.flatMap_cons, List.flatMap_cons]
        simp only [List.map_append, List.map_cons, List.map_nil, hk]
        exact perm_middle_to_end _ _ _
      · unfold nestedContents
        rw [List.flatMap_cons, List.flatMap_cons]
        simp only [List.flatMap_append, List.flatMap_cons, List.flatMap_nil,
          List.append_nil]
        exact perm_middle_to_end _ _ _
    · have hfresh' : (k, ik) ∉ nestedPairs rest := by
        intro hmem
        apply hfresh
        unfold nestedPairs
        rw [List.flatMap_cons]
        exact List.mem_append_right _ hmem
      obtain ⟨ihp, ihc⟩ := ih hfresh'
      rw [alUpdate, if_neg hk]
      constructor
      · unfold nestedPairs
        rw [List.flatMap_cons, List.flatMap_cons]
        refine (List.Perm.append_left _ ihp).trans ?_
        rw [List.append_assoc]
        exact List.Perm.refl _
      · unfold nestedContents
        rw [List.flatMap_cons, List.flatMap_cons]
        refine (List.Perm.append_left _ ihc).trans ?_
        rw [List.append_assoc]
        exact List.Perm.refl _

/-- Original addresses recorded under one function entry list. -/
def famOriginals (fns : List (List Char × List AddressWithOffset)) : List Nat :=
  fns.flatMap (fun kv => kv.2.map (fun awo => awo.original_address))

/-- Original addresses of one `AddressWithOffset` list. -/
def awoOriginals (addrs : List AddressWithOffset) : List Nat :=
  addrs.map (fun awo => awo.original_address)

/-- The `external_funs_by_object` fold: with pairwise-distinct
`(object_index, fun_name)` keys among remaining matches (and none colliding
with the accumulator), the fold extends the accumulator's key pairs by the
match keys and its contents by the matches' original addresses, exactly. -/
theorem groupFold_spec :
    ∀ (ms : List MatchedFunctionWithAddresses)
      (acc : List (Nat × List (List Char × List AddressWithOffset))),
      (nestedPairs acc ++ matchKeys ms).Nodup →
      (nestedPairs (ms.foldl (fun acc m =>
          alUpdate acc m.object_index
            (fun fns => alInsert fns m.fun_name m.addresses)
            [(m.fun_name, m.addresses)]) acc)).Perm
        (nestedPairs acc ++ matchKeys ms) ∧
      (nestedContents awoOriginals (ms.foldl (fun acc m =>
          alUpdate acc m.object_index
            (fun fns => alInsert fns m.fun_name m.addresses)
            [(m.fun_name, m.addresses)]) acc)).Perm
        (nestedContents awoOriginals acc ++ foundOriginals ms) := by
  intro ms
  induction ms with
  | nil =>
    intro acc hnodup
    constructor
    · simp [matchKeys]
    · simp [foundOriginals]
  | cons m rest ih =>
    intro acc hnodup
    have hkeyform : matchKeys (m :: rest) =
        (m.object_index, m.fun_name) :: matchKeys rest := rfl
    have hfresh : (m.object_index, m.fun_name) ∉ nestedPairs acc := by
      intro hmem
      have hdisj := List.disjoint_of_nodup_append hnodup
      exact hdisj hmem (by rw [hkeyform]; exact List.mem_cons_self _ _)
    obtain ⟨hp, hc⟩ := alUpdate_alInsert_spec awoOriginals acc m.object_index
      m.fun_name m.addresses hfresh
    rw [List.foldl_cons]
    have hpermkeys :
        (nestedPairs (alUpdate acc m.object_index
            (fun fns => alInsert fns m.fun_name m.addresses)
            [(m.fun_name, m.addresses)]) ++ matchKeys rest).Perm
          (nestedPairs acc ++ matchKeys (m :: rest)) := by
      refine (hp.append_right _).trans ?_
      rw [hkeyform, List.append_assoc]
      exact List.Perm.refl _
    have hnodup' : (nestedPairs (alUpdate acc m.object_index
        (fun fns => alInsert fns m.fun_name m.addresses)
        [(m.fun_name, m.addresses)]) ++ matchKeys rest).Nodup :=
      hpermkeys.symm.nodup hnodup
    obtain ⟨ihp, ihc⟩ := ih _ hnodup'
    constructor
    · exact ihp.trans hpermkeys
    · refine ihc.trans ?_
      refine (hc.append_right _).trans ?_
      rw [List.append_assoc]
      have hfound : foundOriginals (m :: rest) =
          awoOriginals m.addresses ++ foundOriginals rest := rfl
      rw [hfound]

/-- `groupByObject` on matches with pairwise-distinct keys: the grouped map
carries exactly the match keys and exactly the matched original addresses. -/
theorem groupByObject_spec (ms : List MatchedFunctionWithAddresses)
    (h : (matchKeys ms).Nodup) :
    (nestedPairs (groupByObject ms)).Perm (matchKeys ms) ∧
      (nestedContents awoOriginals (groupByObject ms)).Perm (foundOriginals ms) := by
  have h0 : nestedPairs
      ([] : List (Nat × List (List Char × List AddressWithOffset))) = [] := rfl
  obtain ⟨hp, hc⟩ := groupFold_spec ms [] (by rw [h0, List.nil_append]; exact h)
  constructor
  · exact hp.trans (by rw [h0, List.nil_append])
  · exact hc.trans (by simp [nestedContents])

/-- Top-level keys of the grouped map: no duplicates, and every key is the
object index of some processed match. -/
theorem groupFold_keys :
    ∀ (ms : List MatchedFunctionWithAddresses)
      (acc : List (Nat × List (List Char × List AddressWithOffset))),
      (acc.map Prod.fst).Nodup →
      ((ms.foldl (fun acc m =>
          alUpdate acc m.object_index
            (fun fns => alInsert fns m.fun_name m.addresses)
            [(m.fun_name, m.addresses)]) acc).map Prod.fst).Nodup ∧
        (∀ k, k ∈ (ms.foldl (fun acc m =>
            alUpdate acc m.object_index
              (fun fns => alInsert fns m.fun_name m.addresses)
              [(m.fun_name, m.addresses)]) acc).map Prod.fst →
          k ∈ acc.map Prod.fst ∨ k ∈ ms.map (fun m => m.object_index)) := by
  intro ms
  induction ms with
  | nil =>
    intro acc hnodup
    exact ⟨hnodup, fun k hk => Or.inl hk⟩
  | cons m rest ih =>
    intro acc hnodup
    rw [List.foldl_cons]
    rcases alUpdate_keys acc m.object_index
        (fun fns => alInsert fns m.fun_name m.addresses)
        [(m.fun_name, m.addresses)] with hkeys | ⟨hfresh, hkeys⟩
    · obtain ⟨ihn, ihs⟩ := ih _ (by rw [hkeys]; exact hnodup)
      refine ⟨ihn, fun k hk => ?_⟩
      rcases ihs k hk with hmem | hmem
      · rw [hkeys] at hmem; exact Or.inl hmem
      · exact Or.inr (List.mem_cons_of_mem _ hmem)
    · have hnotin : m.object_index ∉ acc.map Prod.fst := by
        intro hmem
        obtain ⟨kv, hkv, hkveq⟩ := List.mem_map.mp hmem
        exact hfresh kv hkv hkveq
      obtain ⟨ihn, ihs⟩ := ih _ (by
        rw [hkeys, List.nodup_append]
        exact ⟨hnodup, List.nodup_singleton _,
          fun a ha hb => hnotin (by rwa [List.mem_singleton.mp hb] at ha)⟩)
      refine ⟨ihn, fun k hk => ?_⟩
      rcases ihs k hk with hmem | hmem
      · rw [hkeys] at hmem
        rcases List.mem_append.mp hmem with hmem | hmem
        · exact Or.inl hmem
        · exact Or.inr (by
            rw [List.mem_singleton.mp hmem]
            exact List.mem_cons_self _ _)
      · exact Or.inr (List.mem_cons_of_mem _ hmem)

/-- Original addresses recorded across the regular-objects map. -/
def regContents
    (r : List (List Char × List (List Char × List AddressWithOffset))) :
    List Nat :=
  r.flatMap (fun kv => famOriginals kv.2)

/-- The archives/regular-objects partition fold: when the parsed reference
keys of the remaining entries are pairwise distinct and collide with neither
map, the fold preserves every recorded original address, exactly. -/
theorem partitionFold_spec (objects : List (List Char)) :
    ∀ (entries : List (Nat × List (List Char × List AddressWithOffset)))
      (archives : List (List Char ×
        List (List Char × List (List Char × List AddressWithOffset))))
      (regulars : List (List Char × List (List Char × List AddressWithOffset))),
      (entries.map (fun e => parseObjectName (objects.getD e.1 []))).Nodup →
      (∀ e ∈ entries, ∀ path,
        parseObjectName (objects.getD e.1 []) = Sum.inl path →
        path ∉ regulars.map Prod.fst) →
      (∀ e ∈ entries, ∀ path member,
        parseObjectName (objects.getD e.1 []) = Sum.inr (path, member) →
        (path, member) ∉ nestedPairs archives) →
      (nestedContents famOriginals
          (entries.foldl (partitionStep objects) (archives, regulars)).1 ++
        regContents
          (entries.foldl (partitionStep objects) (archives, regulars)).2).Perm
        ((nestedContents famOriginals archives ++ regContents regulars) ++
          entries.flatMap (fun e => famOriginals e.2)) := by
  intro entries
  induction entries with
  | nil =>
    intro archives regulars _ _ _
    simp
  | cons e rest ihe =>
    intro archives regulars hnodup hreg harch
    have hnodup' :
        (rest.map (fun e => parseObjectName (objects.getD e.1 []))).Nodup :=
      (List.nodup_cons.mp hnodup).2
    have hheadfresh : parseObjectName (objects.getD e.1 []) ∉
        rest.map (fun e => parseObjectName (objects.getD e.1 [])) :=
      (List.nodup_cons.mp hnodup).1
    rw [List.foldl_cons]
    have hflat : (e :: rest).flatMap (fun e => famOriginals e.2) =
        famOriginals e.2 ++ rest.flatMap (fun e => famOriginals e.2) := rfl
    rcases hparse : parseObjectName (objects.getD e.1 []) with path | pm
    · have hstep : partitionStep objects (archives, regulars) e =
          (archives, alInsert regulars path e.2) := by
        unfold partitionStep
        rw [hparse]
      have hfreshkeys : ∀ kv ∈ regulars, kv.1 ≠ path := by
        intro kv hkv heq
        exact hreg e (List.mem_cons_self _ _) path hparse
          (List.mem_map.mpr ⟨kv, hkv, heq⟩)
      have hins : alInsert regulars path e.2 = regulars ++ [(path, e.2)] :=
        alInsert_fresh _ _ _ hfreshkeys
      rw [hstep, hins]
      have ihr := ihe archives (regulars ++ [(path, e.2)]) hnodup'
        (by
          intro e' he' path' hparse' hmem
          rw [List.map_append] at hmem
          rcases List.mem_append.mp hmem with hmem | hmem
          · exact hreg e' (List.mem_cons_of_mem _ he') path' hparse' hmem
          · have hpp : path' = path := by
              simpa using hmem
            apply hheadfresh
            rw [hparse, ← hpp, ← hparse']
            exact List.mem_map.mpr ⟨e', he', rfl⟩)
        (by
          intro e' he' p m hp' hmem
          exact harch e' (List.mem_cons_of_mem _ he') p m hp' hmem)
      refine ihr.trans ?_
      have hregc : regContents (regulars ++ [(path, e.2)]) =
          regContents regulars ++ famOriginals e.2 := by
        simp [regContents, List.flatMap_append]
      rw [hregc, hflat]
      simp only [List.append_assoc]
      exact List.Perm.refl _
    · obtain ⟨path, member⟩ := pm
      have hstep : partitionStep objects (archives, regulars) e =
          (alUpdate archives path (fun info => alInsert info member e.2)
            [(member, e.2)], regulars) := by
        unfold partitionStep
        rw [hparse]
      have hfreshpair : (path, member) ∉ nestedPairs archives :=
        harch e (List.mem_cons_self _ _) path member hparse
      obtain ⟨hp, hc⟩ :=
        alUpdate_alInsert_spec famOriginals archives path member e.2 hfreshpair
      rw [hstep]
      have ihr := ihe
        (alUpdate archives path (fun info => alInsert info member e.2)
          [(member, e.2)]) regulars hnodup'
        (by
          intro e' he' path' hparse' hmem
          exact hreg e' (List.mem_cons_of_mem _ he') path' hparse' hmem)
        (by
          intro e' he' p m hp' hmem
          rcases List.mem_append.mp (hp.mem_iff.mp hmem) with hmem2 | hmem2
          · exact harch e' (List.mem_cons_of_mem _ he') p m hp' hmem2
          · have hpm : (p, m) = (path, member) := by simpa using hmem2
            apply hheadfresh
            rw [hparse, ← hpm, ← hp']
            exact List.mem_map.mpr ⟨e', he', rfl⟩)
      refine ihr.trans ?_
      refine (List.Perm.append_right _ ((hc.append_right _))).trans ?_
      refine (List.Perm.append_right _
        (perm_middle_to_end (nestedContents famOriginals archives)
          (famOriginals e.2) (regContents regulars))).trans ?_
      rw [hflat]
      simp only [List.append_assoc]
      exact List.Perm.refl _

theorem sorted_mergeSort_funs (l : List ObjectMapEntry) :
    (l.mergeSort (fun a b => a.address ≤ b.address)).Pairwise
      (fun f g => f.address ≤ g.address) := by
  have h := @List.sorted_mergeSort ObjectMapEntry
    (fun a b : ObjectMapEntry => decide (a.address ≤ b.address))
    (fun a b c h1 h2 => by simp only [decide_eq_true_eq] at h1 h2 ⊢; omega)
    (fun a b => by
      simp only [Bool.or_eq_true, decide_eq_true_eq]
      omega)
    l
  exact h.imp (fun {a b} hd => by simpa only [decide_eq_true_eq] using hd)

theorem foundOriginals_eq_flatten (ms : List MatchedFunctionWithAddresses) :
    foundOriginals ms = (flatten_matches ms).map (fun t => t.2.2.1) := by
  induction ms with
  | nil => rfl
  | cons m rest ih =>
    unfold foundOriginals flatten_matches at ih ⊢
    rw [List.flatMap_cons, List.flatMap_cons, List.map_append, ih, List.map_map]
    rfl

theorem naive_assignments_originals (F : List ObjectMapEntry) :
    ∀ A : List AddressPair,
      (naive_assignments F A).map (fun t => t.2.2.1) =
        (A.filter (fun ap => (naive_match_for_address F ap).isSome)).map
          (fun ap => ap.original_address) := by
  intro A
  induction A with
  | nil => rfl
  | cons ap restA ih =>
    unfold naive_assignments at ih ⊢
    rw [List.filterMap_cons, List.filter_cons]
    cases h : naive_match_for_address F ap with
    | none =>
      rw [if_neg (by simp [h])]
      exact ih
    | some t =>
      rw [if_pos (by simp [h])]
      have ht : t.2.2.1 = ap.original_address := by
        unfold naive_match_for_address at h
        obtain ⟨f, _, hf⟩ := Option.map_eq_some'.mp h
        rw [← hf]
      rw [List.map_cons, List.map_cons, ht, ih]

theorem flatMap_refOriginals_archive
    (l : List (List Char ×
      List (List Char × List (List Char × List AddressWithOffset)))) :
    (l.map (fun kv => ObjectReference.Archive kv.1 kv.2)).flatMap refOriginals =
      nestedContents famOriginals l := by
  induction l with
  | nil => rfl
  | cons kv rest ih =>
    rw [List.map_cons, List.flatMap_cons]
    unfold nestedContents at ih ⊢
    rw [List.flatMap_cons, ih]
    rfl

theorem flatMap_refOriginals_regular
    (l : List (List Char × List (List Char × List AddressWithOffset))) :
    (l.map (fun kv => ObjectReference.Regular kv.1 kv.2)).flatMap refOriginals =
      regContents l := by
  induction l with
  | nil => rfl
  | cons kv rest ih =>
    rw [List.map_cons, List.flatMap_cons]
    unfold regContents at ih ⊢
    rw [List.flatMap_cons, ih]
    rfl

theorem recordedOriginals_partitionRefs (objects : List (List Char))
    (grouped : List (Nat × List (List Char × List AddressWithOffset))) :
    recordedOriginals (partitionRefs objects grouped) =
      nestedContents famOriginals
        (grouped.foldl (partitionStep objects) ([], [])).1 ++
      regContents (grouped.foldl (partitionStep objects) ([], [])).2 := by
  unfold recordedOriginals partitionRefs
  rw [List.flatMap_append, flatMap_refOriginals_archive,
    flatMap_refOriginals_regular]

/-- C3 (amended): for a Mach-O object and a sorted address-pair list, under
the well-formedness conditions that (a) original addresses are pairwise
distinct, (b) the object map's `(object_index, name)` symbol keys are pairwise
distinct, (c) every symbol's object index is in range, and (d) the object
names parse to pairwise-distinct reference keys, the split routes every input
address exactly once: the original addresses recorded across all enqueued
external references together with the internal addresses handed to the local
DWARF collector are a permutation of the input original addresses (so each
input address lands in exactly one matched function of exactly one reference,
or is internal). -/
theorem C3_partition_exact (o : MachoObject) (addresses : List AddressPair)
    (hA : addresses.Pairwise pairLE)
    (horig : (addresses.map (fun ap => ap.original_address)).Nodup)
    (hkeys : (o.objectMapSymbols.map (fun f => (f.object_index, f.name))).Nodup)
    (hidx : ∀ f ∈ o.objectMapSymbols,
      f.object_index < o.objectMapObjects.length)
    (hparse : (o.objectMapObjects.map parseObjectName).Nodup) :
    (recordedOriginals (collect_debug_info_and_object_references o addresses).2 ++
      (collect_debug_info_and_object_references o addresses).1.map
        (fun ap => ap.original_address)).Perm
      (addresses.map (fun ap => ap.original_address)) := by
  set sortedF := o.objectMapSymbols.mergeSort (fun a b => a.address ≤ b.address)
    with hsortedF
  set ms := match_funs_to_addresses sortedF addresses with hms
  set found := foundOriginals ms with hfound
  have hresult : collect_debug_info_and_object_references o addresses =
      (addresses.filter (fun ap => !(found.contains ap.original_address)),
        partitionRefs o.objectMapObjects (groupByObject ms)) := rfl
  have hFsorted : sortedF.Pairwise (fun f g => f.address ≤ g.address) :=
    sorted_mergeSort_funs _
  have hFperm : sortedF.Perm o.objectMapSymbols := List.mergeSort_perm _ _
  have hfunkeysNodup : (funKeys sortedF).Nodup := by
    have hp : (funKeys sortedF).Perm
        (o.objectMapSymbols.map (fun f => (f.object_index, f.name))) :=
      hFperm.map _
    exact hp.symm.nodup hkeys
  have hmsKeysNodup : (matchKeys ms).Nodup :=
    (match_funs_keys_sublist sortedF addresses).nodup hfunkeysNodup
  have hflatten : flatten_matches ms = naive_assignments sortedF addresses := by
    have h := matchLoop_flatten_naive (addresses.length + sortedF.length)
      addresses sortedF false [] (le_refl _) hA hFsorted
      (fun hcon => by simp at hcon)
    rw [hms, match_funs_to_addresses]
    simpa [flatten_matches] using h
  have hfoundeq : found = (addresses.filter
      (fun ap => (naive_match_for_address sortedF ap).isSome)).map
      (fun ap => ap.original_address) := by
    rw [hfound, foundOriginals_eq_flatten, hflatten,
      naive_assignments_originals]
  have hiff : ∀ ap ∈ addresses,
      (ap.original_address ∈ found ↔
        (naive_match_for_address sortedF ap).isSome = true) := by
    intro ap hap
    rw [hfoundeq]
    constructor
    · intro hmem
      obtain ⟨ap', hap', heq⟩ := List.mem_map.mp hmem
      obtain ⟨hap'A, hp'⟩ := List.mem_filter.mp hap'
      have heqap : ap' = ap := List.inj_on_of_nodup_map horig hap'A hap heq
      rwa [← heqap]
    · intro hp
      exact List.mem_map.mpr ⟨ap, List.mem_filter.mpr ⟨hap, hp⟩, rfl⟩
  have hinternal :
      addresses.filter (fun ap => !(found.contains ap.original_address)) =
        addresses.filter
          (fun ap => !((naive_match_for_address sortedF ap).isSome)) := by
    apply List.filter_congr
    intro ap hap
    have h1 : (found.contains ap.original_address) =
        ((naive_match_for_address sortedF ap).isSome) := by
      by_cases hmem : ap.original_address ∈ found
      · have h2 := (hiff ap hap).mp hmem
        have hc : found.contains ap.original_address = true := by
          simpa using hmem
        rw [hc, h2]
      · have h2 : (naive_match_for_address sortedF ap).isSome = false := by
          cases h3 : (naive_match_for_address sortedF ap).isSome
          · rfl
          · exact absurd ((hiff ap hap).mpr h3) hmem
        have hc : found.contains ap.original_address = false := by
          simpa using hmem
        rw [hc, h2]
    rw [h1]
  set grouped := groupByObject ms with hgrouped
  obtain ⟨hgpairs, hgcontents⟩ := groupByObject_spec ms hmsKeysNodup
  obtain ⟨hgkeysNodup, hgkeysMem⟩ := groupFold_keys ms [] (by simp)
  have hkeylt : ∀ k ∈ grouped.map Prod.fst,
      k < o.objectMapObjects.length := by
    intro k hk
    rcases hgkeysMem k hk with hmem | hmem
    · simp at hmem
    · obtain ⟨m, hmmem, hmoi⟩ := List.mem_map.mp hmem
      have hkey : (m.object_index, m.fun_name) ∈ matchKeys ms :=
        List.mem_map.mpr ⟨m, hmmem, rfl⟩
      have hkey2 : (m.object_index, m.fun_name) ∈ funKeys sortedF :=
        (match_funs_keys_sublist sortedF addresses).subset hkey
      obtain ⟨f, hfmem, hfeq⟩ := List.mem_map.mp hkey2
      have hfsym : f ∈ o.objectMapSymbols := hFperm.subset hfmem
      have hbound := hidx f hfsym
      have hoi : f.object_index = m.object_index := congrArg Prod.fst hfeq
      omega
  have hparseInj : ∀ i j, i < o.objectMapObjects.length →
      j < o.objectMapObjects.length → i ≠ j →
      parseObjectName (o.objectMapObjects.getD i []) ≠
        parseObjectName (o.objectMapObjects.getD j []) := by
    intro i j hi hj hne heq
    apply hne
    have hmi : i < (o.objectMapObjects.map parseObjectName).length := by
      simpa using hi
    have hmj : j < (o.objectMapObjects.map parseObjectName).length := by
      simpa using hj
    have hgi : parseObjectName (o.objectMapObjects.getD i []) =
        (o.objectMapObjects.map parseObjectName)[i] := by
      rw [List.getElem_map, List.getD_eq_getElem _ _ hi]
    have hgj : parseObjectName (o.objectMapObjects.getD j []) =
        (o.objectMapObjects.map parseObjectName)[j] := by
      rw [List.getElem_map, List.getD_eq_getElem _ _ hj]
    rw [hgi, hgj] at heq
    exact (hparse.getElem_inj_iff).mp heq
  have hentriesParseNodup : (grouped.map
      (fun e => parseObjectName (o.objectMapObjects.getD e.1 []))).Nodup := by
    have h1 : List.Pairwise
        (fun e e' : Nat × List (List Char × List AddressWithOffset) =>
          e.1 ≠ e'.1) grouped :=
      List.pairwise_map.mp hgkeysNodup
    have h2 : List.Pairwise
        (fun e e' : Nat × List (List Char × List AddressWithOffset) =>
          parseObjectName (o.objectMapObjects.getD e.1 []) ≠
            parseObjectName (o.objectMapObjects.getD e'.1 [])) grouped := by
      refine List.Pairwise.imp_of_mem ?_ h1
      intro a b ha hb hne
      exact hparseInj a.1 b.1 (hkeylt a.1 (List.mem_map.mpr ⟨a, ha, rfl⟩))
        (hkeylt b.1 (List.mem_map.mpr ⟨b, hb, rfl⟩)) hne
    exact List.pairwise_map.mpr h2
  have hpart := partitionFold_spec o.objectMapObjects grouped [] []
    hentriesParseNodup
    (by intro e he path hp hmem; simp at hmem)
    (by intro e he p m hp hmem; simp [nestedPairs] at hmem)
  have hGC : grouped.flatMap (fun e => famOriginals e.2) =
      nestedContents awoOriginals grouped := rfl
  have hrecPerm : (recordedOriginals
      (partitionRefs o.objectMapObjects grouped)).Perm found := by
    rw [recordedOriginals_partitionRefs]
    refine hpart.trans ?_
    have hz : ((nestedContents famOriginals ([] : List (List Char ×
          List (List Char × List (List Char × List AddressWithOffset)))) ++
        regContents []) ++ grouped.flatMap (fun e => famOriginals e.2)) =
          grouped.flatMap (fun e => famOriginals e.2) := by
      simp [nestedContents, regContents]
    rw [hz, hGC]
    exact hgcontents
  rw [hresult]
  simp only [hinternal]
  refine (hrecPerm.append_right _).trans ?_
  rw [hfoundeq, ← List.map_append]
  exact (List.filter_append_perm _ addresses).map _

unseal List.merge List.mergeSort in
/-- C3 counterexample to the claim as stated: three concrete inputs, each with
a sorted address-pair list, on which the split loses or duplicates addresses.
First, two object-map entries sharing `(object_index, name)`: the second
`HashMap::insert` overwrites the first, losing original address `1`. Second,
two pairs sharing an original address where only one is matched: the other is
excluded from the internal list as well, losing one occurrence of `7`. Third,
two object names `a(b)` and `a(b))` parsing to the same archive key: the
archive-info insert overwrites, losing original address `1`. -/
theorem C3_counterexample :
    (List.Pairwise pairLE
        [{ original_address := 1, address_in_this_object := 5 },
          { original_address := 2, address_in_this_object := 15 }] ∧
      (recordedOriginals (collect_debug_info_and_object_references
          { segments := [], symbols := [], objectMapObjects := [['e']],
            objectMapSymbols :=
              [{ object_index := 0, name := ['f'], address := 0, size := 10 },
                { object_index := 0, name := ['f'], address := 10, size := 10 }] }
          [{ original_address := 1, address_in_this_object := 5 },
            { original_address := 2, address_in_this_object := 15 }]).2 ++
        ((collect_debug_info_and_object_references
          { segments := [], symbols := [], objectMapObjects := [['e']],
            objectMapSymbols :=
              [{ object_index := 0, name := ['f'], address := 0, size := 10 },
                { object_index := 0, name := ['f'], address := 10, size := 10 }] }
          [{ original_address := 1, address_in_this_object := 5 },
            { original_address := 2, address_in_this_object := 15 }]).1.map
          (fun ap => ap.original_address))) = [2] ∧
      ¬ (([2] : List Nat).Perm [1, 2])) ∧
    ((recordedOriginals (collect_debug_info_and_object_references
          { segments := [], symbols := [], objectMapObjects := [['e']],
            objectMapSymbols :=
              [{ object_index := 0, name := ['f'], address := 10, size := 5 }] }
          [{ original_address := 7, address_in_this_object := 12 },
            { original_address := 7, address_in_this_object := 100 }]).2 ++
        ((collect_debug_info_and_object_references
          { segments := [], symbols := [], objectMapObjects := [['e']],
            objectMapSymbols :=
              [{ object_index := 0, name := ['f'], address := 10, size := 5 }] }
          [{ original_address := 7, address_in_this_object := 12 },
            { original_address := 7, address_in_this_object := 100 }]).1.map
          (fun ap => ap.original_address))) = [7] ∧
      ¬ (([7] : List Nat).Perm [7, 7])) ∧
    ((recordedOriginals (collect_debug_info_and_object_references
          { segments := [], symbols := [],
            objectMapObjects :=
              [['a', '(', 'b', ')'], ['a', '(', 'b', ')', ')']],
            objectMapSymbols :=
              [{ object_index := 0, name := ['f'], address := 10, size := 5 },
                { object_index := 1, name := ['g'], address := 20, size := 5 }] }
          [{ original_address := 1, address_in_this_object := 12 },
            { original_address := 2, address_in_this_object := 22 }]).2 ++
        ((collect_debug_info_and_object_references
          { segments := [], symbols := [],
            objectMapObjects :=
              [['a', '(', 'b', ')'], ['a', '(', 'b', ')', ')']],
            objectMapSymbols :=
              [{ object_index := 0, name := ['f'], address := 10, size := 5 },
                { object_index := 1, name := ['g'], address := 20, size := 5 }] }
          [{ original_address := 1, address_in_this_object := 12 },
            { original_address := 2, address_in_this_object := 22 }]).1.map
          (fun ap => ap.original_address))) = [2] ∧
      ¬ (([2] : List Nat).Perm [1, 2])) := by
  decide

unseal List.merge List.mergeSort in
/-- C3 witness: the amended theorem applied at a concrete well-formed input
where one address is matched externally and one stays internal. -/
theorem C3_witness :
    (recordedOriginals (collect_debug_info_and_object_references
        { segments := [], symbols := [], objectMapObjects := [['e'], ['h']],
          objectMapSymbols :=
            [{ object_index := 0, name := ['f'], address := 10, size := 5 },
              { object_index := 1, name := ['g'], address := 20, size := 5 }] }
        [{ original_address := 100, address_in_this_object := 12 },
          { original_address := 101, address_in_this_object := 30 }]).2 ++
      ((collect_debug_info_and_object_references
        { segments := [], symbols := [], objectMapObjects := [['e'], ['h']],
          objectMapSymbols :=
            [{ object_index := 0, name := ['f'], address := 10, size := 5 },
              { object_index := 1, name := ['g'], address := 20, size := 5 }] }
        [{ original_address := 100, address_in_this_object := 12 },
          { original_address := 101, address_in_this_object := 30 }]).1.map
        (fun ap => ap.original_address))).Perm
      (([{ original_address := 100, address_in_this_object := 12 },
        { original_address := 101, address_in_this_object := 30 }] :
          List AddressPair).map
        (fun ap => ap.original_address)) :=
  C3_partition_exact
    { segments := [], symbols := [], objectMapObjects := [['e'], ['h']],
      objectMapSymbols :=
        [{ object_index := 0, name := ['f'], address := 10, size := 5 },
          { object_index := 1, name := ['g'], address := 20, size := 5 }] }
    [{ original_address := 100, address_in_this_object := 12 },
      { original_address := 101, address_in_this_object := 30 }]
    (by decide) (by decide) (by decide) (by decide) (by decide)

/-! ### External-reference traversal
(`traverse_object_references_and_collect_debug_info`, lines 148–182, and
`ObjectReference::into_objects`, lines 292–328)

The file helper and the `object` crate are embedded as oracles over opaque
file and data identifiers. The breadth-first loop is driven by fuel (each
processed reference may enqueue new ones); `none` marks fuel exhaustion and
never occurs in the statements below, which each concern one loop step. -/
structure TraversalWorld where
  openFile : List Char → Option Nat
  fullData : Nat → Nat
  archiveParse : Nat → Except Nat (List (List Char × Nat))
  machoParse : Nat → Except Nat MachoObject

def refPath : ObjectReference → List Char
  | .Regular path _ => path
  | .Archive path _ => path

/-- `ObjectReference::into_objects`: a regular reference yields the file's
full range with its functions; an archive reference parses the archive
directory (failure is `ArchiveParseError` carrying the path) and looks up
each wanted member among the archive's members, skipping absent members. -/
def into_objects (w : TraversalWorld) (fileId : Nat) :
    ObjectReference →
      Except GetSymbolsError (List (Nat × List (List Char × List AddressWithOffset)))
  | .Regular _ functions => .ok [(w.fullData fileId, functions)]
  | .Archive path archive_info =>
    match w.archiveParse fileId with
    | .error e => .error (.ArchiveParseError path e)
    | .ok members =>
      .ok (archive_info.filterMap (fun mkv =>
        (members.find? (fun m => m.1 = mkv.1)).map (fun m => (m.2, mkv.2))))

/-- The `for (data, functions) in obj_ref.into_objects(..)?` body: parse each
contained object as Mach-O (failure is a fatal `MachOHeaderParseError`),
translate the recorded functions to in-object address pairs, and run the
local-vs-external split, gathering the references to enqueue and the internal
address lists handed to the DWARF collector. -/
def processObjects (w : TraversalWorld) :
    List (Nat × List (List Char × List AddressWithOffset)) →
      Except GetSymbolsError (List ObjectReference × List (List AddressPair))
  | [] => .ok ([], [])
  | (dataId, functions) :: more =>
    match w.machoParse dataId with
    | .error e => .error (.MachOHeaderParseError e)
    | .ok macho_file =>
      match processObjects w more with
      | .error e => .error e
      | .ok (refs, internals) =>
        .ok ((collect_debug_info_and_object_references macho_file
            (translate_addresses_to_object macho_file functions)).2 ++ refs,
          (collect_debug_info_and_object_references macho_file
            (translate_addresses_to_object macho_file functions)).1 :: internals)

/-- Embedding of `traverse_object_references_and_collect_debug_info`: pop the
front reference, skip it silently when the helper cannot open its file,
propagate parse errors fatally, and otherwise enqueue the new references at
the back and continue. The accumulated state is the list of internal
address-pair lists passed to the DWARF collector. -/
def traverse_object_references_and_collect_debug_info (w : TraversalWorld) :
    Nat → List ObjectReference → List (List AddressPair) →
      Option (Except GetSymbolsError (List (List AddressPair)))
  | _, [], st => some (.ok st)
  | 0, _ :: _, _ => none
  | fuel + 1, obj_ref :: rest, st =>
    match w.openFile (refPath obj_ref) with
    | none => traverse_object_references_and_collect_debug_info w fuel rest st
    | some fileId =>
      match into_objects w fileId obj_ref with
      | .error e => some (.error e)
      | .ok objs =>
        match processObjects w objs with
        | .error e => some (.error e)
        | .ok (newRefs, internals) =>
          traverse_object_references_and_collect_debug_info w fuel
            (rest ++ newRefs) (st ++ internals)

/-- C7: per reference in the FIFO — an unopenable file is skipped silently
and traversal continues; a file that opens but whose archive directory fails
to parse aborts the whole call with `ArchiveParseError`; a file that opens but
whose (first) contained Mach-O header fails to parse aborts the whole call
with `MachOHeaderParseError`. -/
theorem C7_failure_policy (w : TraversalWorld) (fuel : Nat)
    (r : ObjectReference) (rest : List ObjectReference)
    (st : List (List AddressPair)) :
    (w.openFile (refPath r) = none →
      traverse_object_references_and_collect_debug_info w (fuel + 1)
          (r :: rest) st =
        traverse_object_references_and_collect_debug_info w fuel rest st) ∧
      (∀ path info fid e, r = .Archive path info →
        w.openFile path = some fid → w.archiveParse fid = .error e →
        traverse_object_references_and_collect_debug_info w (fuel + 1)
            (r :: rest) st =
          some (.error (.ArchiveParseError path e))) ∧
      (∀ fid dataId functions more e, w.openFile (refPath r) = some fid →
        into_objects w fid r = .ok ((dataId, functions) :: more) →
        w.machoParse dataId = .error e →
        traverse_object_references_and_collect_debug_info w (fuel + 1)
            (r :: rest) st =
          some (.error (.MachOHeaderParseError e))) := by
  refine ⟨?_, ?_, ?_⟩
  · intro hopen
    rw [traverse_object_references_and_collect_debug_info, hopen]
  · intro path info fid e hr hopen harch
    subst hr
    have hpath : refPath (.Archive path info) = path := rfl
    have hinto : into_objects w fid (.Archive path info) =
        .error (.ArchiveParseError path e) := by
      rw [into_objects, harch]
    rw [traverse_object_references_and_collect_debug_info]
    simp only [hpath, hopen, hinto]
  · intro fid dataId functions more e hopen hinto hmacho
    have hproc : processObjects w ((dataId, functions) :: more) =
        .error (.MachOHeaderParseError e) := by
      rw [processObjects, hmacho]
    rw [traverse_object_references_and_collect_debug_info]
    simp only [hopen, hinto, hproc]

/-- A concrete traversal environment: file `a` cannot be opened, file `b`
opens but its archive directory fails to parse, file `c` opens but its Mach-O
header fails to parse. -/
def c7World : TraversalWorld :=
  { openFile := fun p =>
      if p = ['a'] then none
      else if p = ['b'] then some 1
      else if p = ['c'] then some 2
      else none
    fullData := fun fid => fid * 10
    archiveParse := fun fid => if fid = 1 then .error 5 else .ok []
    machoParse := fun _ => .error 9 }

/-- C7 witness: the theorem applied to one concrete reference of each kind. -/
theorem C7_witness :
    traverse_object_references_and_collect_debug_info c7World 1
        [.Regular ['a'] []] [] =
      traverse_object_references_and_collect_debug_info c7World 0 [] [] ∧
      traverse_object_references_and_collect_debug_info c7World 1
          [.Archive ['b'] []] [] =
        some (.error (.ArchiveParseError ['b'] 5)) ∧
      traverse_object_references_and_collect_debug_info c7World 1
          [.Regular ['c'] []] [] =
        some (.error (.MachOHeaderParseError 9)) :=
  ⟨(C7_failure_policy c7World 0 (.Regular ['a'] []) [] []).1 rfl,
    (C7_failure_policy c7World 0 (.Archive ['b'] []) [] []).2.1 ['b'] [] 1 5
      rfl rfl rfl,
    (C7_failure_policy c7World 0 (.Regular ['c'] []) [] []).2.2 2 20 [] [] 9
      rfl rfl rfl⟩

/-! ### PDB frame resolution (`src/lib/src/pdb/addr2line.rs`)

The `pdb` crate's data is embedded at the point the repository's code reads
it: symbol streams are lists of parsed symbol data (anything else, including
symbols that fail to parse, is `other`); internal section offsets that the
code resolves through the address map and unwraps are carried pre-resolved as
RVAs in `PLineInfo.rva`, while the procedure-start resolution, whose `None`
case the code branches on, stays an `Option`. The type dumper is a pair of
injected formatting functions. -/
structure PLineInfo where
  rva : Nat
  length : Option Nat
  fileIndex : Nat
  lineStart : Nat
  columnStart : Option Nat
deriving DecidableEq

structure PLocation where
  file : Option String
  line : Option Nat
  column : Option Nat
deriving DecidableEq

structure PFrame where
  function : Option String
  location : Option PLocation
deriving DecidableEq

structure ProcSym where
  name : String
  typeIndex : Nat
  startRva : Option Nat
  len : Nat
  offset : Nat
deriving DecidableEq

inductive PdbSym where
  | proc (p : ProcSym)
  | inlineSite (inlinee : Nat)
  | other
deriving DecidableEq

structure PdbModule where
  symbols : List PdbSym
  linesAtOffset : Nat → List PLineInfo
  inlinees : List (Nat × List PLineInfo)
  fileName : Nat → Option String

structure PdbContext where
  modules : List PdbModule
  writeFunction : String → Nat → String
  writeId : Nat → String

/-- Embedding of `line_info_to_location`. -/
def line_info_to_location (m : PdbModule) (li : PLineInfo) : PLocation :=
  { file := m.fileName li.fileIndex
    line := some li.lineStart
    column := li.columnStart }

/-- Embedding of `find_line_infos_containing_addresses_no_size`: a line's end
RVA is the next line's start RVA, or the procedure end for the last line. -/
def find_line_infos_containing_addresses_no_size (lines : List PLineInfo)
    (addresses : List Nat) (outer_end_rva : Nat) :
    List (List Nat × PLineInfo) :=
  let starts := lines.map (fun li => li.rva)
  let ends := starts.drop 1 ++ [outer_end_rva]
  ((starts.zip ends).zip lines).filterMap (fun se =>
    let covered := get_addresses_covered_by_range addresses se.1.1 se.1.2
    if covered = [] then none else some (covered, se.2))

/-- Embedding of `find_line_infos_containing_addresses_with_size`: lines
without a length are skipped. -/
def find_line_infos_containing_addresses_with_size (lines : List PLineInfo)
    (addresses : List Nat) : List (List Nat × PLineInfo) :=
  lines.filterMap (fun li =>
    match li.length with
    | none => none
    | some l =>
      let covered := get_addresses_covered_by_range addresses li.rva (li.rva + l)
      if covered = [] then none else some (covered, li))

/-- In-place modification of one address's frame vector in the per-address
map (`frames_per_address.get_mut(address)`); covered addresses always are
keys, so the missing-key panic is unreachable. -/
def updFrames (m : List (Nat × List PFrame)) (a : Nat)
    (g : List PFrame → List PFrame) : List (Nat × List PFrame) :=
  m.map (fun kv => if kv.1 = a then (kv.1, g kv.2) else kv)

/-- `frames[0].location = Some(location)`. -/
def setLoc0 (loc : PLocation) : List PFrame → List PFrame
  | [] => []
  | f :: rest => { f with location := some loc } :: rest

/-- Embedding of `frames_for_addresses_for_inline_symbol`. -/
def frames_for_addresses_for_inline_symbol (ctx : PdbContext) (m : PdbModule)
    (site : Nat) (addresses : List Nat) : Option (List (List Nat × PFrame)) :=
  match (m.inlinees.find? (fun kv => kv.1 = site)).map (fun kv => kv.2) with
  | none => none
  | some inlinee_lines =>
    let line_infos :=
      find_line_infos_containing_addresses_with_size inlinee_lines addresses
    if line_infos = [] then none
    else
      some (line_infos.map (fun ci =>
        (ci.1, { function := some (ctx.writeId site)
                 location := some (line_info_to_location m ci.2) })))

/-- The inline-site walk: from the symbol after the procedure symbol, stop at
the next procedure symbol or stream end; each matching inline site appends its
frame to every covered address's vector. -/
def processInlineSymbols (ctx : PdbContext) (m : PdbModule)
    (addresses : List Nat) :
    List PdbSym → List (Nat × List PFrame) → List (Nat × List PFrame)
  | [], fpa => fpa
  | .proc _ :: _, fpa => fpa
  | .other :: rest, fpa => processInlineSymbols ctx m addresses rest fpa
  | .inlineSite site :: rest, fpa =>
    match frames_for_addresses_for_inline_symbol ctx m site addresses with
    | none => processInlineSymbols ctx m addresses rest fpa
    | some inline_frames =>
      processInlineSymbols ctx m addresses rest
        (inline_frames.foldl (fun acc ci =>
          ci.1.foldl (fun acc2 a => updFrames acc2 a (fun fs => fs ++ [ci.2]))
            acc) fpa)

/-- Embedding of `find_frames_for_addresses_from_procedure`: seed every
address with the formatted-procedure frame, attach locations from the
procedure's (no-size) line records to frame 0, walk inline sites appending
inline frames, and finally reverse each address's frame list. -/
def find_frames_for_addresses_from_procedure (ctx : PdbContext) (m : PdbModule)
    (symbolIndex : Nat) (proc : ProcSym) (rangeEnd : Nat)
    (addresses : List Nat) : List (Nat × List PFrame) :=
  let seeded : List (Nat × List PFrame) :=
    addresses.map (fun a =>
      (a, [{ function := some (ctx.writeFunction proc.name proc.typeIndex)
             location := none }]))
  let withLoc := (find_line_infos_containing_addresses_no_size
      (m.linesAtOffset proc.offset) addresses rangeEnd).foldl
    (fun acc ci =>
      ci.1.foldl (fun acc2 a =>
        updFrames acc2 a (setLoc0 (line_info_to_location m ci.2))) acc) seeded
  let afterInlines := processInlineSymbols ctx m addresses
    (m.symbols.drop (symbolIndex + 1)) withLoc
  afterInlines.map (fun kv => (kv.1, kv.2.reverse))

/-- The per-module procedure search of `find_frames`: the first symbol that
parses to a procedure whose resolved RVA range contains the address;
procedures whose offset has no RVA are skipped. -/
def findProcInModule (address : Nat) : List PdbSym → Nat →
    Option (Nat × ProcSym × Nat × Nat)
  | [], _ => none
  | .proc p :: rest, i =>
    match p.startRva with
    | none => findProcInModule address rest (i + 1)
    | some rva =>
      if rva ≤ address ∧ address < rva + p.len then
        some (i, p, rva, rva + p.len)
      else findProcInModule address rest (i + 1)
  | _ :: rest, i => findProcInModule address rest (i + 1)

def find_frames_go (ctx : PdbContext) (address : Nat) :
    List PdbModule → List PFrame
  | [] => []
  | m :: rest =>
    match findProcInModule address m.symbols 0 with
    | none => find_frames_go ctx address rest
    | some (idx, p, _, rEnd) =>
      match find_frames_for_addresses_from_procedure ctx m idx p rEnd
          [address] with
      | [] => []
      | kv :: _ => kv.2

/-- Embedding of `find_frames`: iterate the modules, resolve the first one
containing a procedure covering the address, and return that single address's
frame list; no containing procedure yields the empty list. -/
def find_frames (ctx : PdbContext) (address : Nat) : List PFrame :=
  find_frames_go ctx address ctx.modules

/-- The invariant of one address's frame vector during the batched PDB
resolution, before the final reversal: the head frame is the procedure frame
(its function name never changes after seeding) and every later frame was
pushed by an inline site, carrying a `write_id`-formatted name. -/
def frameVecInv (fn : Option String) (wid : Nat → String)
    (fs : List PFrame) : Prop :=
  ∃ f0 rest, fs = f0 :: rest ∧ f0.function = fn ∧
    ∀ f ∈ rest, ∃ id, f.function = some (wid id)

def frameMapInv (fn : Option String) (wid : Nat → String)
    (fpa : List (Nat × List PFrame)) : Prop :=
  ∀ kv ∈ fpa, frameVecInv fn wid kv.2

theorem frameMapInv_updFrames (fn : Option String) (wid : Nat → String)
    (m : List (Nat × List PFrame)) (a : Nat) (g : List PFrame → List PFrame)
    (hg : ∀ fs, frameVecInv fn wid fs → frameVecInv fn wid (g fs))
    (hm : frameMapInv fn wid m) : frameMapInv fn wid (updFrames m a g) := by
  intro kv hkv
  obtain ⟨kv', hkv', heq⟩ := List.mem_map.mp hkv
  by_cases h : kv'.1 = a
  · rw [if_pos h] at heq
    rw [← heq]
    exact hg kv'.2 (hm kv' hkv')
  · rw [if_neg h] at heq
    rw [← heq]
    exact hm kv' hkv'

theorem frameVecInv_setLoc0 (fn : Option String) (wid : Nat → String)
    (loc : PLocation) (fs : List PFrame) (h : frameVecInv fn wid fs) :
    frameVecInv fn wid (setLoc0 loc fs) := by
  obtain ⟨f0, rest, rfl, hf0, hrest⟩ := h
  exact ⟨{ f0 with location := some loc }, rest, rfl, hf0, hrest⟩

theorem frameVecInv_push (fn : Option String) (wid : Nat → String)
    (fs : List PFrame) (fr : PFrame) (id : Nat)
    (hfr : fr.function = some (wid id)) (h : frameVecInv fn wid fs) :
    frameVecInv fn wid (fs ++ [fr]) := by
  obtain ⟨f0, rest, rfl, hf0, hrest⟩ := h
  refine ⟨f0, rest ++ [fr], by simp, hf0, ?_⟩
  intro f hf
  rcases List.mem_append.mp hf with hf | hf
  · exact hrest f hf
  · exact ⟨id, by rw [List.mem_singleton.mp hf]; exact hfr⟩

theorem foldl_preserves_of_mem {α σ : Type} (P : σ → Prop) (f : σ → α → σ) :
    ∀ (l : List α), (∀ s a, a ∈ l → P s → P (f s a)) →
      ∀ s, P s → P (l.foldl f s) := by
  intro l
  induction l with
  | nil => intro _ s hs; exact hs
  | cons a rest ih =>
    intro h s hs
    exact ih (fun s b hb hsP => h s b (List.mem_cons_of_mem _ hb) hsP) _
      (h s a (List.mem_cons_self _ _) hs)

theorem frames_for_inline_function (ctx : PdbContext) (m : PdbModule)
    (site : Nat) (addresses : List Nat)
    (inline_frames : List (List Nat × PFrame))
    (h : frames_for_addresses_for_inline_symbol ctx m site addresses =
      some inline_frames) :
    ∀ ci ∈ inline_frames, ci.2.function = some (ctx.writeId site) := by
  unfold frames_for_addresses_for_inline_symbol at h
  cases h1 : (m.inlinees.find? (fun kv => kv.1 = site)).map (fun kv => kv.2) with
  | none =>
    simp only [h1] at h
    exact absurd h (by simp)
  | some ls =>
    simp only [h1] at h
    by_cases h2 : find_line_infos_containing_addresses_with_size ls addresses = []
    · rw [if_pos h2] at h
      exact absurd h (by simp)
    · rw [if_neg h2] at h
      have heq := Option.some.inj h
      intro ci hci
      rw [← heq] at hci
      obtain ⟨li, _, hlieq⟩ := List.mem_map.mp hci
      rw [← hlieq]

theorem processInlineSymbols_inv (ctx : PdbContext) (m : PdbModule)
    (addresses : List Nat) (fn : Option String) :
    ∀ (syms : List PdbSym) (fpa : List (Nat × List PFrame)),
      frameMapInv fn ctx.writeId fpa →
      frameMapInv fn ctx.writeId
        (processInlineSymbols ctx m addresses syms fpa) := by
  intro syms
  induction syms with
  | nil => intro fpa h; exact h
  | cons s rest ih =>
    intro fpa h
    cases s with
    | proc p => exact h
    | other => exact ih fpa h
    | inlineSite site =>
      rw [processInlineSymbols]
      cases hf : frames_for_addresses_for_inline_symbol ctx m site addresses with
      | none => exact ih fpa h
      | some inline_frames =>
        apply ih
        refine foldl_preserves_of_mem _ _ inline_frames ?_ fpa h
        intro s ci hci hs
        refine foldl_preserves_of_mem _ _ ci.1 ?_ s hs
        intro s2 a _ hs2
        refine frameMapInv_updFrames _ _ _ _ _ ?_ hs2
        intro fs hfs
        exact frameVecInv_push _ _ _ _ site
          (frames_for_inline_function ctx m site addresses inline_frames hf
            ci hci) hfs

/-- Every entry of the batched per-procedure result ends with the procedure
frame, preceded only by inline frames. -/
theorem find_frames_for_addresses_inv (ctx : PdbContext) (m : PdbModule)
    (symbolIndex : Nat) (proc : ProcSym) (rangeEnd : Nat)
    (addresses : List Nat) :
    ∀ kv ∈ find_frames_for_addresses_from_procedure ctx m symbolIndex proc
        rangeEnd addresses,
      ∃ rest last, kv.2 = rest ++ [last] ∧
        last.function = some (ctx.writeFunction proc.name proc.typeIndex) ∧
        ∀ f ∈ rest, ∃ id, f.function = some (ctx.writeId id) := by
  intro kv hkv
  unfold find_frames_for_addresses_from_procedure at hkv
  obtain ⟨kv', hkv', heq⟩ := List.mem_map.mp hkv
  have hseed : frameMapInv (some (ctx.writeFunction proc.name proc.typeIndex))
      ctx.writeId (addresses.map (fun a =>
        (a, [{ function := some (ctx.writeFunction proc.name proc.typeIndex)
               location := none }]))) := by
    intro kv0 hkv0
    obtain ⟨a, _, haeq⟩ := List.mem_map.mp hkv0
    rw [← haeq]
    exact ⟨_, [], rfl, rfl, fun f hf => absurd hf (List.not_mem_nil f)⟩
  have hwithloc : frameMapInv
      (some (ctx.writeFunction proc.name proc.typeIndex)) ctx.writeId
      ((find_line_infos_containing_addresses_no_size
          (m.linesAtOffset proc.offset) addresses rangeEnd).foldl
        (fun acc ci =>
          ci.1.foldl (fun acc2 a =>
            updFrames acc2 a (setLoc0 (line_info_to_location m ci.2))) acc)
        (addresses.map (fun a =>
          (a, [{ function := some (ctx.writeFunction proc.name proc.typeIndex)
                 location := none }])))) := by
    refine foldl_preserves_of_mem _ _ _ ?_ _ hseed
    intro s ci _ hs
    refine foldl_preserves_of_mem _ _ ci.1 ?_ s hs
    intro s2 a _ hs2
    exact frameMapInv_updFrames _ _ _ _ _
      (fun fs hfs => frameVecInv_setLoc0 _ _ _ fs hfs) hs2
  have hfinal := processInlineSymbols_inv ctx m addresses _
    (m.symbols.drop (symbolIndex + 1)) _ hwithloc
  obtain ⟨f0, rest, hfs, hf0, hrest⟩ := hfinal kv' hkv'
  refine ⟨rest.reverse, f0, ?_, hf0, ?_⟩
  · rw [← heq]
    show kv'.2.reverse = rest.reverse ++ [f0]
    rw [hfs, List.reverse_cons]
  · intro f hf
    exact hrest f (List.mem_reverse.mp hf)

theorem updFrames_length (m : List (Nat × List PFrame)) (a : Nat)
    (g : List PFrame → List PFrame) : (updFrames m a g).length = m.length := by
  simp [updFrames]

theorem processInlineSymbols_length (ctx : PdbContext) (m : PdbModule)
    (addresses : List Nat) :
    ∀ (syms : List PdbSym) (fpa : List (Nat × List PFrame)),
      (processInlineSymbols ctx m addresses syms fpa).length = fpa.length := by
  intro syms
  induction syms with
  | nil => intro fpa; rfl
  | cons s rest ih =>
    intro fpa
    cases s with
    | proc p => rfl
    | other => exact ih fpa
    | inlineSite site =>
      rw [processInlineSymbols]
      cases hf : frames_for_addresses_for_inline_symbol ctx m site addresses with
      | none => exact ih fpa
      | some inline_frames =>
        rw [ih]
        refine foldl_preserves_of_mem (fun s => s.length = fpa.length) _
          inline_frames ?_ fpa rfl
        intro s ci _ hs
        refine foldl_preserves_of_mem (fun s => s.length = fpa.length) _
          ci.1 ?_ s hs
        intro s2 a _ hs2
        rw [updFrames_length]
        exact hs2

theorem withLoc_length (m : PdbModule) (proc : ProcSym) (rangeEnd : Nat)
    (addresses : List Nat) (seeded : List (Nat × List PFrame))
    (hs : seeded.length = addresses.length) :
    ((find_line_infos_containing_addresses_no_size
        (m.linesAtOffset proc.offset) addresses rangeEnd).foldl
      (fun acc ci =>
        ci.1.foldl (fun acc2 a =>
          updFrames acc2 a (setLoc0 (line_info_to_location m ci.2))) acc)
      seeded).length = addresses.length := by
  refine foldl_preserves_of_mem
    (fun (s : List (Nat × List PFrame)) => s.length = addresses.length)
    _ _ ?_ _ hs
  intro s ci _ hsP
  refine foldl_preserves_of_mem
    (fun (s : List (Nat × List PFrame)) => s.length = addresses.length)
    _ ci.1 ?_ s hsP
  intro s2 a _ hs2
  rw [updFrames_length]
  exact hs2

theorem batched_length (ctx : PdbContext) (m : PdbModule) (symbolIndex : Nat)
    (proc : ProcSym) (rangeEnd : Nat) (addresses : List Nat) :
    (find_frames_for_addresses_from_procedure ctx m symbolIndex proc rangeEnd
      addresses).length = addresses.length := by
  unfold find_frames_for_addresses_from_procedure
  rw [List.length_map, processInlineSymbols_length, withLoc_length]
  simp

theorem find_frames_go_no_proc (ctx : PdbContext) (address : Nat) :
    ∀ mods, (∀ m ∈ mods, findProcInModule address m.symbols 0 = none) →
      find_frames_go ctx address mods = [] := by
  intro mods
  induction mods with
  | nil => intro _; rfl
  | cons m rest ih =>
    intro h
    rw [find_frames_go]
    simp only [h m (List.mem_cons_self _ _)]
    exact ih (fun m' hm' => h m' (List.mem_cons_of_mem _ hm'))

theorem find_frames_go_found (ctx : PdbContext) (address : Nat) :
    ∀ (pre : List PdbModule) (m : PdbModule) (post : List PdbModule)
      (idx : Nat) (p : ProcSym) (rs re : Nat),
      (∀ m' ∈ pre, findProcInModule address m'.symbols 0 = none) →
      findProcInModule address m.symbols 0 = some (idx, p, rs, re) →
      ∃ rest last,
        find_frames_go ctx address (pre ++ m :: post) = rest ++ [last] ∧
          last.function = some (ctx.writeFunction p.name p.typeIndex) ∧
          ∀ f ∈ rest, ∃ id, f.function = some (ctx.writeId id) := by
  intro pre
  induction pre with
  | nil =>
    intro m post idx p rs re _ hfind
    rw [List.nil_append, find_frames_go]
    simp only [hfind]
    have hlen : (find_frames_for_addresses_from_procedure ctx m idx p re
        [address]).length = 1 := by
      rw [batched_length]
      rfl
    cases hb : find_frames_for_addresses_from_procedure ctx m idx p re
        [address] with
    | nil =>
      rw [hb] at hlen
      simp at hlen
    | cons kv t =>
      have hkv : kv ∈ find_frames_for_addresses_from_procedure ctx m idx p re
          [address] := by
        rw [hb]
        exact List.mem_cons_self _ _
      obtain ⟨rest, last, hresult, hlast, hrest⟩ :=
        find_frames_for_addresses_inv ctx m idx p re [address] kv hkv
      exact ⟨rest, last, hresult, hlast, hrest⟩
  | cons m' pre' ih =>
    intro m post idx p rs re hpre hfind
    rw [List.cons_append, find_frames_go]
    simp only [hpre m' (List.mem_cons_self _ _)]
    exact ih m post idx p rs re
      (fun x hx => hpre x (List.mem_cons_of_mem _ hx)) hfind

/-- C1 (amended): the PDB engine's frame lists are ordered *innermost first*:
for an RVA not contained in any procedure of any module, `find_frames` returns
the empty list; for an RVA contained in the first matching procedure of some
module, the returned list is non-empty, the frame at the *last* index carries
the enclosing procedure's formatted name, and every earlier frame is an inline
frame carrying a formatted inline-site name (the innermost inline frame at
index 0). -/
theorem C1_find_frames_order (ctx : PdbContext) (address : Nat) :
    ((∀ m ∈ ctx.modules, findProcInModule address m.symbols 0 = none) →
      find_frames ctx address = []) ∧
      (∀ pre m post idx p rs re, ctx.modules = pre ++ m :: post →
        (∀ m' ∈ pre, findProcInModule address m'.symbols 0 = none) →
        findProcInModule address m.symbols 0 = some (idx, p, rs, re) →
        ∃ rest last, find_frames ctx address = rest ++ [last] ∧
          last.function = some (ctx.writeFunction p.name p.typeIndex) ∧
          ∀ f ∈ rest, ∃ id, f.function = some (ctx.writeId id)) := by
  constructor
  · intro h
    exact find_frames_go_no_proc ctx address ctx.modules h
  · intro pre m post idx p rs re hmods hpre hfind
    rw [find_frames, hmods]
    exact find_frames_go_found ctx address pre m post idx p rs re hpre hfind

/-- A one-module context: procedure `p` covering RVAs `[4096, 4352)` with one
inline site (id 7) whose line record covers `[4160, 4224)`. -/
def c1Proc : ProcSym :=
  { name := "p", typeIndex := 0, startRva := some 4096, len := 256, offset := 0 }

def c1Line : PLineInfo :=
  { rva := 4160, length := some 64, fileIndex := 0, lineStart := 10,
    columnStart := none }

def c1Module : PdbModule :=
  { symbols := [.proc c1Proc, .inlineSite 7]
    linesAtOffset := fun _ => []
    inlinees := [(7, [c1Line])]
    fileName := fun _ => none }

def c1Ctx : PdbContext :=
  { modules := [c1Module]
    writeFunction := fun n _ => n
    writeId := fun _ => "inline" }

/-- C1 counterexample to the claim as stated: for RVA `4176`, contained in
procedure `p` and in inline site 7, the frame at index 0 carries the *inline*
site's name, not the enclosing procedure's — the final reversal in the code
("Now order from inside to outside") puts the procedure frame last. -/
theorem C1_counterexample :
    (find_frames c1Ctx 4176).map (fun f => f.function) =
        [some "inline", some "p"] ∧
      c1Ctx.writeFunction c1Proc.name c1Proc.typeIndex = "p" ∧
      some ("inline" : String) ≠ some "p" := by
  refine ⟨by decide, rfl, by simp⟩

/-- C1 witness: the amended theorem applied at RVA `4176` in the one-module
context, and at a context with no modules. -/
theorem C1_witness :
    (∃ rest last, find_frames c1Ctx 4176 = rest ++ [last] ∧
        last.function = some (c1Ctx.writeFunction c1Proc.name c1Proc.typeIndex) ∧
        ∀ f ∈ rest, ∃ id, f.function = some (c1Ctx.writeId id)) ∧
      find_frames
          { modules := [], writeFunction := fun n _ => n,
            writeId := fun _ => "i" } 4176 = [] :=
  ⟨(C1_find_frames_order c1Ctx 4176).2 [] c1Module [] 0 c1Proc 4096 4352 rfl
      (fun m' hm' => absurd hm' (List.not_mem_nil m')) rfl,
    (C1_find_frames_order
        { modules := [], writeFunction := fun n _ => n,
          writeId := fun _ => "i" } 4176).1
      (fun m hm => absurd hm (List.not_mem_nil m))⟩
